import Mathlib

/-!
Shallow embedding of the artdaq_core ContainerFragmentLoader
(src/artdaq-core/Data/ContainerFragmentLoader.hh) together with the parts of
its collaborators (artdaq::Fragment byte arena, ContainerFragment reader)
that the loader calls.  The collaborators are not part of the source tree
under verification, so their operations are modelled from the specification
(section 2 "Byte Arena", section 3 data model, section 4.4 Index Builder,
section 4.5 growth policy); each such definition carries a doc comment
starting with "Modelled from the spec:".  All byte offsets in this format
are multiples of the 8-byte word, so the payload is embedded as a list of
64-bit words and byte offsets are converted to word positions by division
by 8 exactly where the source does pointer arithmetic.
-/

namespace artdaq

/-- Number of bytes in one raw fragment word (sizeof(RawDataType)). -/
def wordBytes : Nat := 8

/-- Modelled from the spec: number of Metadata sub-words per fragment word
(words_per_frag_word_ in the source; the metadata record is measured in a
finer granularity than the arena word).  The exact value is opaque to every
claim; we fix a representative positive constant. -/
def wordsPerFragWord : Nat := 8

/-- Modelled from the spec: Metadata::size_words, the size of the container
metadata record in metadata sub-words.  Opaque to every claim. -/
def metaSizeWords : Nat := 24

/-- Modelled from the spec: artdaq::detail::RawFragmentHeader::num_words(),
the size of the arena header in arena words.  Opaque to every claim. -/
def headerWords : Nat := 3

/-- Modelled from the spec: the sentinel type tag of an empty fragment
(Fragment::EmptyFragmentType). -/
def EmptyFragmentType : Nat := 1

/-- Modelled from the spec: the outer system type tag identifying a
container fragment (Fragment::ContainerFragmentType). -/
def ContainerFragmentType : Nat := 230

/-- Modelled from the spec: the fixed magic marker word written as the first
payload word of every container (CONTAINER_MAGIC).  The exact value is not
given by the spec; it is a fixed nonzero sentinel. -/
def CONTAINER_MAGIC : Nat := 0xB10C5BADF00D

/-- Modelled from the spec: ContainerFragment::CURRENT_VERSION, the current
format revision. -/
def CURRENT_VERSION : Nat := 1

/-- The container metadata record (ContainerFragment::Metadata), overlaid on
the arena metadata slot.  The bit packing is opaque to the claims, so the
record is embedded with one Lean field per bitfield. -/
structure Metadata where
  block_count : Nat
  fragment_type : Nat
  missing_data : Bool
  has_index : Bool
  version : Nat
  index_offset : Nat
deriving DecidableEq

/-- The metadata record written by the constructor for an expected type. -/
def freshMeta (t : Nat) : Metadata :=
  { block_count := 0, fragment_type := t, missing_data := false, has_index := true,
    version := CURRENT_VERSION, index_offset := 0 }

/-- Modelled from the spec: the byte arena (artdaq::Fragment) that the
loader borrows: an outer type tag, a fixed-size metadata slot, and a
resizable payload of words. -/
structure Arena where
  systemType : Nat
  meta : Metadata
  payload : List Nat
deriving DecidableEq

/-- Modelled from the spec: a record (fragment) to be packed is a
self-describing run of words; its first header word reports the record
word count and type tag. -/
structure Frag where
  words : List Nat
deriving DecidableEq

/-- Modelled from the spec: decode the self-reported word count from the
first header word of a record (low 32 bits). -/
def hdrWordCount (w : Nat) : Nat := w % 2 ^ 32

/-- Modelled from the spec: decode the type tag from the first header word
of a record (8 bits starting at bit 48). -/
def hdrTypeTag (w : Nat) : Nat := w / 2 ^ 48 % 2 ^ 8

/-- Modelled from the spec: encode a header word from a word count and a
type tag; inverse of hdrWordCount and hdrTypeTag on small values. -/
def mkHeaderWord (wc t : Nat) : Nat := wc % 2 ^ 32 + (t % 2 ^ 8) * 2 ^ 48

/-- Frag::size, the self-reported total word count of the record. -/
def Frag.sizeWords (f : Frag) : Nat := hdrWordCount (f.words.headD 0)

/-- Frag::sizeBytes, the self-reported total byte size of the record. -/
def Frag.sizeBytes (f : Frag) : Nat := wordBytes * f.sizeWords

/-- Frag::type, the type tag of the record. -/
def Frag.type (f : Frag) : Nat := hdrTypeTag (f.words.headD 0)

/-- A record is well formed when its self-reported word count equals its
actual length and is positive (every real fragment contains its header). -/
def fragWF (f : Frag) : Bool :=
  decide (f.words.length = f.sizeWords) && decide (0 < f.sizeWords)

/-- Overwrite the run of words starting at word position p with ws
(the model of memcpy into the payload). -/
def writeList (buf : List Nat) (p : Nat) (ws : List Nat) : List Nat :=
  buf.take p ++ ws ++ buf.drop (p + ws.length)

/-- Modelled from the spec: Fragment::resize to exactly n payload words,
keeping existing words and zero-filling growth. -/
def resizeWords (a : Arena) (n : Nat) : Arena :=
  { a with payload := (a.payload ++ List.replicate (n - a.payload.length) 0).take n }

/-- Fragment::dataSize, the payload size in words. -/
def Arena.dataSize (a : Arena) : Nat := a.payload.length

/-- Fragment::dataSizeBytes, the payload size in bytes. -/
def Arena.dataSizeBytes (a : Arena) : Nat := wordBytes * a.payload.length

/-- words_to_frag_words_ from the source: round a metadata sub-word count up
to whole fragment words. -/
def words_to_frag_words (nWords : Nat) : Nat :=
  if nWords % wordsPerFragWord = 0 then nWords / wordsPerFragWord
  else nWords / wordsPerFragWord + 1

/-- Modelled from the spec: Fragment::size, the total arena size in words:
header words plus the fixed metadata slot plus the payload. -/
def Arena.size (a : Arena) : Nat :=
  headerWords + words_to_frag_words metaSizeWords + a.payload.length

/-- Write into the arena payload at word position p. -/
def writeAt (a : Arena) (p : Nat) (ws : List Nat) : Arena :=
  { a with payload := writeList a.payload p ws }

/-- Error kinds of the loader (the cet::exception tags). -/
inductive CFLErr where
  | InvalidFragment
  | WrongFragmentType
deriving DecidableEq

/-- set_fragment_type from the source. -/
def set_fragment_type (a : Arena) (t : Nat) : Arena :=
  { a with meta := { a.meta with fragment_type := t } }

/-- set_missing_data from the source. -/
def set_missing_data (a : Arena) (b : Bool) : Arena :=
  { a with meta := { a.meta with missing_data := b } }

/-- Update the has_index metadata bit. -/
def setHasIndexA (a : Arena) (b : Bool) : Arena :=
  { a with meta := { a.meta with has_index := b } }

/-- Update the block_count metadata field. -/
def setBlockCountA (a : Arena) (n : Nat) : Arena :=
  { a with meta := { a.meta with block_count := n } }

/-- Update the index_offset metadata field. -/
def setIndexOffsetA (a : Arena) (n : Nat) : Arena :=
  { a with meta := { a.meta with index_offset := n } }

/-- The ContainerFragmentLoader constructor, embedded in source order: tag
the outer type, write the metadata record, then check the arena size and
fail with InvalidFragment on mismatch; on success shrink the payload to one
word and write the magic marker.  A raised error carries the arena as the
caller observes it after the throw. -/
def containerFragmentLoader (f : Arena) (expectedFragmentType : Nat) :
    Except (CFLErr × Arena) Arena :=
  let f1 : Arena := { f with systemType := ContainerFragmentType }
  let m : Metadata :=
    { block_count := 0, fragment_type := expectedFragmentType,
      missing_data := false, has_index := true,
      version := CURRENT_VERSION, index_offset := 0 }
  let f2 : Arena := { f1 with meta := m }
  if f2.size ≠ headerWords + words_to_frag_words metaSizeWords then
    .error (.InvalidFragment, f2)
  else
    .ok (writeAt (resizeWords f2 1) 0 [CONTAINER_MAGIC])

/-- Modelled from the spec: the Index Builder walk (create_index_ of the
ContainerFragment base class, absent from the source tree).  Starting one
word past the magic marker, it advances by each packed record's
self-reported byte size and records the offset reached after each record
(each entry is where the previous record ends and the next begins); after
the last record the resulting offset is recorded once more as the table's
own location, so the terminator repeats the final entry.  This is the one
reading of the spec's walk under which the loader's assignment of
index_offset from entry block_count - 1 places the table exactly at the end
of the packed data, as the spec's layout and self-referential-terminator
sentences require. -/
def indexWalk (payload : List Nat) : Nat → Nat → List Nat
  | 0, off => [off]
  | Nat.succ k, off =>
      let sz := wordBytes * hdrWordCount (payload.getD (off / wordBytes) 0)
      (off + sz) :: indexWalk payload k (off + sz)

/-- create_index_ applied to the current container state: one walk over
block_count packed records starting at the first record offset. -/
def create_index (a : Arena) : List Nat :=
  indexWalk a.payload a.meta.block_count wordBytes

/-- Modelled from the spec: lastFragmentIndex, the end offset of the last
currently packed record (the first record offset when the container is
empty); computed by the index walk. -/
def lastFragmentIndex (a : Arena) : Nat :=
  (create_index a).getLastD wordBytes

/-- The index table as physically stored in the payload: block_count + 1
word-sized entries starting at byte offset index_offset. -/
def storedIndex (a : Arena) : List Nat :=
  (List.range (a.meta.block_count + 1)).map fun i =>
    a.payload.getD (a.meta.index_offset / wordBytes + i) 0

/-- Modelled from the spec: the reader's start offset of packed record i;
the first record starts immediately after the magic marker and each stored
table entry gives where a record ends and the next starts. -/
def fragmentStart (a : Arena) (i : Nat) : Nat :=
  if i = 0 then wordBytes else (storedIndex a).getD (i - 1) 0

/-- The words of packed record i as read back through the stored index. -/
def readRecord (a : Arena) (i : Nat) : List Nat :=
  (a.payload.take (fragmentStart a (i + 1) / wordBytes)).drop
    (fragmentStart a i / wordBytes)

/-- All packed records as read back through the stored index. -/
def readRecords (a : Arena) : List (List Nat) :=
  (List.range a.meta.block_count).map (readRecord a)

/-- Modelled from the spec: the growth cushion: the requested byte target
multiplied by 1.3, partial bytes rounded up.  The hardware double constant
1.3 is bounded below by the rational 13/10 used here, so every lower bound
proved of this model also holds of the source. -/
def cushionBytes (targetBytes : Nat) : Nat := (targetBytes * 13 + 9) / 10

/-- Modelled from the spec: Fragment::resizeBytesWithCushion: grow the
payload so that it holds at least the cushioned byte target, in whole
words, partial words rounded up, leaving header and metadata reservations
in place so the payload itself grows by the requested amount. -/
def resizeBytesWithCushion (a : Arena) (targetBytes : Nat) : Arena :=
  resizeWords a ((cushionBytes targetBytes + 7) / wordBytes)

/-- addSpace_ from the source: grow by the requested extra bytes on top of
the current payload size, with the 1.3 cushion. -/
def addSpace (a : Arena) (bytes : Nat) : Arena :=
  resizeBytesWithCushion a (bytes + a.dataSizeBytes)

/-- The capacity needed by a single-record add, exactly as written in the
source guard: end of packed data, plus the new record, plus table space for
block_count + 2 entries. -/
def requiredBytes (a : Arena) (f : Frag) : Nat :=
  lastFragmentIndex a + f.sizeBytes + wordBytes * (a.meta.block_count + 2)

/-- The growth step of addFragment: grow by the shortfall when the payload
is too small, otherwise leave the arena untouched. -/
def growIfNeeded (a : Arena) (f : Frag) : Arena :=
  if a.dataSizeBytes < requiredBytes a f then
    addSpace a (requiredBytes a f - a.dataSizeBytes)
  else a

/-- The shared type policy step: adopt the record type when the container
type is still the empty sentinel; otherwise fail with WrongFragmentType
when the types differ and heterogeneity is not allowed. -/
def typeCheck (a : Arena) (t : Nat) (allow : Bool) :
    Except (CFLErr × Arena) Arena :=
  if a.meta.fragment_type = EmptyFragmentType then .ok (set_fragment_type a t)
  else if allow = false ∧ t ≠ a.meta.fragment_type then
    .error (.WrongFragmentType, a)
  else .ok a

/-- The index rebuild tail shared verbatim by both add paths in the source:
with block_count already bumped, rebuild the index, record entry
block_count - 1 as index_offset, copy the whole table there, and set
has_index. -/
def finishIndex (a : Arena) : Arena :=
  let index := create_index a
  let a6 := setIndexOffsetA a (index.getD (a.meta.block_count - 1) 0)
  let a7 := writeAt a6 (a6.meta.index_offset / wordBytes) index
  setHasIndexA a7 true

/-- The unconditional tail of addFragment after the type policy: grow if
needed, copy the record bytes to the end of the packed data, clear
has_index, bump block_count, and rebuild the index. -/
def addFragmentBody (a : Arena) (f : Frag) : Arena :=
  let a2 := growIfNeeded a f
  let a3 := writeAt a2 (lastFragmentIndex a2 / wordBytes) (f.words.take f.sizeWords)
  let a4 := setHasIndexA a3 false
  finishIndex (setBlockCountA a4 (a4.meta.block_count + 1))

/-- addFragment from the source (single record). -/
def addFragment (a : Arena) (f : Frag) (allow : Bool) :
    Except (CFLErr × Arena) Arena :=
  match typeCheck a f.type allow with
  | .error e => .error e
  | .ok a1 => .ok (addFragmentBody a1 f)

/-- The copy loop of addFragments: per record, the same type policy as the
single-record path, then a copy at the running write cursor. -/
def copyLoop (a : Arena) (ptr : Nat) (frags : List Frag) (allow : Bool) :
    Except (CFLErr × Arena) Arena :=
  match frags with
  | [] => .ok a
  | f :: fs =>
    match typeCheck a f.type allow with
    | .error e => .error e
    | .ok a1 =>
        copyLoop (writeAt a1 (ptr / wordBytes) (f.words.take f.sizeWords))
          (ptr + f.sizeBytes) fs allow

/-- addFragments from the source (batch): one growth for the whole batch,
the copy loop, then a single block_count bump and index rebuild. -/
def addFragments (a : Arena) (frags : List Frag) (allow : Bool) :
    Except (CFLErr × Arena) Arena :=
  let total := (frags.map Frag.sizeBytes).sum
  let need := lastFragmentIndex a + total +
    wordBytes * (a.meta.block_count + 1 + frags.length)
  let a1 := if a.dataSizeBytes < need then addSpace a (need - a.dataSizeBytes) else a
  match copyLoop a1 (lastFragmentIndex a1) frags allow with
  | .error e => .error e
  | .ok a2 =>
    let a3 := setHasIndexA a2 false
    .ok (finishIndex (setBlockCountA a3 (a3.meta.block_count + frags.length)))

/-- One mutating operation of the loader interface. -/
inductive Op where
  | addF (f : Frag) (allow : Bool)
  | addFs (fs : List Frag) (allow : Bool)
  | setType (t : Nat)
  | setMissing (b : Bool)
deriving DecidableEq

/-- Apply one operation. -/
def applyOp (a : Arena) : Op → Except (CFLErr × Arena) Arena
  | .addF f allow => addFragment a f allow
  | .addFs fs allow => addFragments a fs allow
  | .setType t => .ok (set_fragment_type a t)
  | .setMissing b => .ok (set_missing_data a b)

/-- Run a sequence of operations, stopping at the first error. -/
def runOps (a : Arena) : List Op → Except (CFLErr × Arena) Arena
  | [] => .ok a
  | op :: ops =>
    match applyOp a op with
    | .ok b => runOps b ops
    | .error e => .error e

/-- Run a sequence of operations to the end, continuing from the carried
arena state when an operation raises (the borrowed arena keeps whatever the
failing call wrote before throwing). -/
def runOpsTotal (a : Arena) : List Op → Arena
  | [] => a
  | op :: ops =>
    runOpsTotal (match applyOp a op with | .ok b => b | .error e => e.2) ops

/-- The arena as left behind by a call: the new state on success, the
carried state on a raised error. -/
def exceptArena : Except (CFLErr × Arena) Arena → Arena
  | .ok b => b
  | .error e => e.2

/-- Every record of a batch is well formed. -/
def fragsWF : List Frag → Bool
  | [] => true
  | f :: fs => fragWF f && fragsWF fs

/-- An operation is well formed when every record it adds is well formed
and batches are nonempty (an empty batch on an empty container indexes the
local table at position block_count - 1 with an unsigned zero count, which
is undefined behaviour in the source). -/
def opWF : Op → Bool
  | .addF f _ => fragWF f
  | .addFs fs _ => decide (fs ≠ []) && fragsWF fs
  | .setType _ => true
  | .setMissing _ => true

/-- All operations of a sequence are well formed. -/
def opsWF : List Op → Bool
  | [] => true
  | op :: ops => opWF op && opsWF ops

/-- Total word count of a list of packed records. -/
def totalWords (recs : List (List Nat)) : Nat := (recs.map List.length).sum

/-- The end offsets of a run of records laid out from byte offset off: one
entry per record naming where it ends (and the next starts), with the final
offset repeated as the self-referential terminator; the single entry off
when there are no records. -/
def endOffsets (off : Nat) : List (List Nat) → List Nat
  | [] => [off]
  | r :: rs => (off + wordBytes * r.length) :: endOffsets (off + wordBytes * r.length) rs

/-- Every packed record is nonempty and self-reports its own length. -/
def recsWF : List (List Nat) → Bool
  | [] => true
  | r :: rs =>
    (decide (r ≠ []) && decide (hdrWordCount (r.headD 0) = r.length)) && recsWF rs

/-- The representation invariant of a consistent container holding recs:
block_count counts recs, has_index is set, the payload region is the magic
marker followed by the packed record words, and for a nonempty container
the stored table at index_offset is the end-offset table of recs with
index_offset at the end of the packed data; a fresh container stores no
table and has index_offset zero. -/
def reprB (a : Arena) (recs : List (List Nat)) : Bool :=
  recsWF recs &&
  decide (a.meta.block_count = recs.length) &&
  a.meta.has_index &&
  decide (a.payload.take (1 + totalWords recs) = CONTAINER_MAGIC :: recs.flatten) &&
  (if recs.length = 0 then decide (a.meta.index_offset = 0)
   else decide (a.meta.index_offset = wordBytes * (1 + totalWords recs)) &&
     decide (storedIndex a = endOffsets wordBytes recs))

/-- The type policy applied to a whole batch in order: acceptable when no
record triggers the WrongFragmentType failure. -/
def typesAcceptable (t : Nat) (frags : List Frag) (allow : Bool) : Bool :=
  match frags with
  | [] => true
  | f :: fs =>
    if t = EmptyFragmentType then typesAcceptable f.type fs allow
    else if allow = false ∧ f.type ≠ t then false
    else typesAcceptable t fs allow

/-- The container type after a run of adoptions. -/
def adoptFold (t : Nat) : List Frag → Nat
  | [] => t
  | f :: fs => adoptFold (if t = EmptyFragmentType then f.type else t) fs

/-- Appending a batch one record at a time through the single-record add. -/
def foldAdd (a : Arena) (frags : List Frag) (allow : Bool) :
    Except (CFLErr × Arena) Arena :=
  match frags with
  | [] => .ok a
  | f :: fs =>
    match addFragment a f allow with
    | .error e => .error e
    | .ok b => foldAdd b fs allow

/-- A concrete empty arena of the exact construction size. -/
def arena0 : Arena :=
  { systemType := 0,
    meta := { block_count := 0, fragment_type := 0, missing_data := false,
              has_index := false, version := 0, index_offset := 0 },
    payload := [] }

/-- A concrete two-word record of type 3. -/
def fragA : Frag := { words := [mkHeaderWord 2 3, 11] }

/-- A second concrete two-word record of type 3. -/
def fragB : Frag := { words := [mkHeaderWord 2 3, 22] }

/-- A concrete two-word record of type 5. -/
def fragC : Frag := { words := [mkHeaderWord 2 5, 33] }

/-- The container constructed over arena0 with expected type 3. -/
def c0 : Arena :=
  match containerFragmentLoader arena0 3 with
  | .ok c => c
  | .error e => e.2

/-- The container c0 after a single add of fragA. -/
def c1 : Arena :=
  match addFragment c0 fragA false with
  | .ok c => c
  | .error e => e.2

/-- A concrete arena of the wrong construction size (one payload word). -/
def badArena : Arena :=
  { systemType := 0,
    meta := { block_count := 0, fragment_type := 0, missing_data := false,
              has_index := false, version := 0, index_offset := 0 },
    payload := [7] }

/-- A container constructed with the empty sentinel expected type. -/
def cE : Arena :=
  match containerFragmentLoader arena0 EmptyFragmentType with
  | .ok c => c
  | .error e => e.2

/-- The arena carried out of the mid-batch type failure on c1. -/
def c10s : Arena := exceptArena (addFragments c1 [fragB, fragC] false)

/-- A concrete operation sequence exercising every mutating entry point. -/
def opsMix : List Op :=
  [Op.addFs [fragA, fragB] false, Op.setType 9, Op.addF fragC true, Op.setMissing true]

/-- Reading below the length of the left part of an append stays left. -/
theorem getD_append_left (A B : List Nat) (i d : Nat) (h : i < A.length) :
    (A ++ B).getD i d = A.getD i d := by
  simp [List.getD_eq_getElem?_getD, List.getElem?_append, h]

/-- Reading past the left part of an append reads the right part. -/
theorem getD_append_right (A B : List Nat) (i d : Nat) :
    (A ++ B).getD (A.length + i) d = B.getD i d := by
  simp [List.getD_eq_getElem?_getD, List.getElem?_append]

/-- Reading strictly inside a take reads the underlying list. -/
theorem getD_take_of_lt (l : List Nat) (k i d : Nat) (h : i < k) :
    (l.take k).getD i d = l.getD i d := by
  simp [List.getD_eq_getElem?_getD, List.getElem?_take, h]

/-- Reading at the seam of an append yields the head of the right part. -/
theorem getD_head_of_concat (pre r rest : List Nat) (d : Nat) (h : r ≠ []) :
    (pre ++ (r ++ rest)).getD pre.length d = r.headD d := by
  have h0 : (pre ++ (r ++ rest)).getD (pre.length + 0) d = (r ++ rest).getD 0 d :=
    getD_append_right pre (r ++ rest) 0 d
  cases r with
  | nil => exact absurd rfl h
  | cons x t => simpa using h0

/-- Reading an in-range position of a mapped range applies the function. -/
theorem getD_map_range (f : Nat → Nat) (k i d : Nat) (h : i < k) :
    ((List.range k).map f).getD i d = f i := by
  simp [List.getD_eq_getElem?_getD, List.getElem?_range, h]

/-- A list is recovered by reading each of its positions in order. -/
theorem map_range_getD (l : List Nat) :
    (List.range l.length).map (fun i => l.getD i 0) = l := by
  induction l with
  | nil => rfl
  | cons x t ih =>
    have hr : List.range (t.length + 1) = 0 :: (List.range t.length).map (· + 1) :=
      List.range_succ_eq_map t.length
    simp only [List.length_cons, hr, List.map_cons, List.map_map]
    refine congrArg (x :: ·) ?_
    have hc : ((fun i => (x :: t).getD i 0) ∘ fun i => i + 1) = fun i => t.getD i 0 := by
      funext i
      exact List.getD_cons_succ
    rw [hc, ih]

/-- An in-bounds overwrite preserves the buffer length. -/
theorem writeList_length (buf ws : List Nat) (p : Nat) (h : p + ws.length ≤ buf.length) :
    (writeList buf p ws).length = buf.length := by
  simp [writeList]
  omega

/-- An overwrite never shrinks the buffer. -/
theorem writeList_length_ge (buf ws : List Nat) (p : Nat) :
    buf.length ≤ (writeList buf p ws).length := by
  simp [writeList]
  omega

/-- An overwrite at or past position q leaves the first q entries alone. -/
theorem writeList_take_left (buf ws : List Nat) (p q : Nat) (hq : q ≤ p)
    (hlen : q ≤ buf.length) :
    (writeList buf p ws).take q = buf.take q := by
  unfold writeList
  rw [List.append_assoc, List.take_append_of_le_length (by simp; omega), List.take_take,
    Nat.min_eq_left hq]

/-- The region up to the end of an in-bounds overwrite reads the untouched
front followed by the written words. -/
theorem writeList_take_concat (buf ws : List Nat) (p : Nat) (h : p ≤ buf.length) :
    (writeList buf p ws).take (p + ws.length) = buf.take p ++ ws := by
  unfold writeList
  have h1 : (buf.take p).length = p := by simp; omega
  have h3 : (buf.take p).length ≤ p + ws.length := by
    rw [h1]
    exact Nat.le_add_right p ws.length
  rw [List.append_assoc, List.take_append_eq_append_take,
    List.take_of_length_le h3, h1]
  have h2 : p + ws.length - p = ws.length := by omega
  rw [h2]
  refine congrArg (buf.take p ++ ·) ?_
  exact List.take_left ws _

/-- Reading inside an in-bounds overwrite reads the written words. -/
theorem writeList_getD (buf ws : List Nat) (p i d : Nat) (hp : p ≤ buf.length)
    (hi : i < ws.length) :
    (writeList buf p ws).getD (p + i) d = ws.getD i d := by
  unfold writeList
  have h1 : (buf.take p).length = p := by simp; omega
  rw [List.append_assoc, show p + i = (buf.take p).length + i by omega, getD_append_right,
    getD_append_left _ _ _ _ hi]

/-- An overwrite at a positive position keeps the head of a nonempty buffer. -/
theorem writeList_headD (buf ws : List Nat) (p d : Nat) (hb : buf ≠ []) (hp : 1 ≤ p) :
    (writeList buf p ws).headD d = buf.headD d := by
  cases buf with
  | nil => exact absurd rfl hb
  | cons x t =>
    cases p with
    | zero => omega
    | succ q => simp [writeList]

/-- An overwrite at a positive position keeps the buffer nonempty. -/
theorem writeList_ne_nil (buf ws : List Nat) (p : Nat) (hb : buf ≠ []) (hp : 1 ≤ p) :
    writeList buf p ws ≠ [] := by
  cases buf with
  | nil => exact absurd rfl hb
  | cons x t =>
    cases p with
    | zero => omega
    | succ q => simp [writeList]

/-- Resizing sets the payload length to the request. -/
theorem resizeWords_length (a : Arena) (n : Nat) :
    (resizeWords a n).payload.length = n := by
  simp [resizeWords]
  omega

/-- Resizing to at least k words keeps the first k words. -/
theorem resizeWords_take (a : Arena) (n k : Nat) (hk : k ≤ n) (hlen : k ≤ a.payload.length) :
    (resizeWords a n).payload.take k = a.payload.take k := by
  simp only [resizeWords]
  rw [List.take_take, Nat.min_eq_left hk, List.take_append_of_le_length hlen]

/-- Resizing preserves in-bounds reads below both sizes. -/
theorem resizeWords_getD (a : Arena) (n i d : Nat) (hi : i < a.payload.length) (hn : i < n) :
    (resizeWords a n).payload.getD i d = a.payload.getD i d := by
  simp only [resizeWords]
  rw [getD_take_of_lt _ _ _ _ hn, getD_append_left _ _ _ _ hi]

/-- Resizing does not change the metadata or the outer type tag. -/
theorem resizeWords_meta (a : Arena) (n : Nat) :
    (resizeWords a n).meta = a.meta ∧ (resizeWords a n).systemType = a.systemType := by
  constructor <;> rfl

/-- The index walk over a payload that starts with pre followed by wellformed
packed records computes exactly the end-offset table of those records. -/
theorem indexWalk_spec (recs : List (List Nat)) (pre rest : List Nat)
    (hwf : recsWF recs = true) :
    indexWalk (pre ++ (recs.flatten ++ rest)) recs.length (wordBytes * pre.length) =
      endOffsets (wordBytes * pre.length) recs := by
  induction recs generalizing pre with
  | nil => rfl
  | cons r rs ih =>
    simp only [recsWF, Bool.and_eq_true, decide_eq_true_eq] at hwf
    obtain ⟨⟨hne, hcount⟩, hrs⟩ := hwf
    have hdiv : wordBytes * pre.length / wordBytes = pre.length :=
      Nat.mul_div_cancel_left pre.length (by norm_num [wordBytes])
    have hflat : (r :: rs).flatten ++ rest = r ++ (rs.flatten ++ rest) := by
      simp
    have hread : (pre ++ ((r :: rs).flatten ++ rest)).getD (wordBytes * pre.length / wordBytes) 0
        = r.headD 0 := by
      rw [hdiv, hflat]
      exact getD_head_of_concat pre r (rs.flatten ++ rest) 0 hne
    simp only [List.length_cons, indexWalk, hread, hcount, endOffsets]
    have hlen2 : wordBytes * pre.length + wordBytes * r.length = wordBytes * (pre ++ r).length := by
      simp [List.length_append, Nat.mul_add]
    have hassoc : pre ++ ((r :: rs).flatten ++ rest) = (pre ++ r) ++ (rs.flatten ++ rest) := by
      simp
    refine congrArg (_ :: ·) ?_
    rw [hlen2, hassoc]
    exact ih (pre ++ r) hrs

/-- The end-offset table has one entry per record plus the terminator. -/
theorem endOffsets_length (off : Nat) (recs : List (List Nat)) :
    (endOffsets off recs).length = recs.length + 1 := by
  induction recs generalizing off with
  | nil => rfl
  | cons r rs ih => simp [endOffsets, ih]

/-- The final entry of the end-offset table is the end of the packed data. -/
theorem endOffsets_getLastD (off d : Nat) (recs : List (List Nat)) :
    (endOffsets off recs).getLastD d = off + wordBytes * totalWords recs := by
  induction recs generalizing off d with
  | nil => simp [endOffsets, totalWords]
  | cons r rs ih =>
    simp only [endOffsets, List.getLastD_cons, ih, totalWords, List.map_cons, List.sum_cons]
    ring

/-- Each in-range entry of the end-offset table is the cumulative end of the
records up to it. -/
theorem endOffsets_getD (off : Nat) (recs : List (List Nat)) (i : Nat)
    (h : i < recs.length) :
    (endOffsets off recs).getD i 0 = off + wordBytes * totalWords (recs.take (i + 1)) := by
  induction recs generalizing off i with
  | nil => simp at h
  | cons r rs ih =>
    cases i with
    | zero => simp [endOffsets, totalWords]
    | succ j =>
      have hj : j < rs.length := by simpa using h
      simp only [endOffsets, List.getD_cons_succ, ih _ _ hj, List.take_succ_cons,
        totalWords, List.map_cons, List.sum_cons]
      ring

/-- The entry named by block_count - 1 equals the end of all packed data. -/
theorem endOffsets_getD_last (off : Nat) (recs : List (List Nat)) (h : recs ≠ []) :
    (endOffsets off recs).getD (recs.length - 1) 0 = off + wordBytes * totalWords recs := by
  have hlen : 0 < recs.length := List.length_pos.mpr h
  have h1 : recs.length - 1 < recs.length := by omega
  rw [endOffsets_getD off recs _ h1]
  have : recs.length - 1 + 1 = recs.length := by omega
  rw [this, List.take_length]

/-- Every entry of the end-offset table is at least the starting offset. -/
theorem endOffsets_ge (off : Nat) (recs : List (List Nat)) (i : Nat)
    (h : i ≤ recs.length) :
    off ≤ (endOffsets off recs).getD i 0 := by
  induction recs generalizing off i with
  | nil =>
    have : i = 0 := by simpa using h
    simp [this, endOffsets]
  | cons r rs ih =>
    cases i with
    | zero => simp [endOffsets]
    | succ j =>
      have hj : j ≤ rs.length := by simpa using h
      have := ih (off + wordBytes * r.length) j hj
      simp only [endOffsets, List.getD_cons_succ]
      omega

/-- Every entry of an index walk is at least the starting offset. -/
theorem indexWalk_getD_ge (payload : List Nat) (n off i : Nat) (h : i ≤ n) :
    off ≤ (indexWalk payload n off).getD i 0 := by
  induction n generalizing off i with
  | zero =>
    have : i = 0 := by omega
    simp [this, indexWalk]
  | succ k ih =>
    cases i with
    | zero =>
      simp only [indexWalk, List.getD_cons_zero]
      omega
    | succ j =>
      have hj : j ≤ k := by omega
      have := ih (off + wordBytes * hdrWordCount (payload.getD (off / wordBytes) 0)) j hj
      simp only [indexWalk, List.getD_cons_succ]
      omega

/-- The final entry of an index walk is at least the starting offset. -/
theorem indexWalk_getLastD_ge (payload : List Nat) (n off d : Nat) :
    off ≤ (indexWalk payload n off).getLastD d := by
  induction n generalizing off d with
  | zero => simp [indexWalk]
  | succ k ih =>
    simp only [indexWalk, List.getLastD_cons]
    exact le_trans (Nat.le_add_right off _) (ih _ _)

/-- The packed words of a record list measure its total word count. -/
theorem totalWords_flatten (recs : List (List Nat)) :
    recs.flatten.length = totalWords recs := List.length_flatten recs

/-- Unfold the representation invariant into its components. -/
theorem reprB_elim {a : Arena} {recs : List (List Nat)} (h : reprB a recs = true) :
    recsWF recs = true ∧ a.meta.block_count = recs.length ∧ a.meta.has_index = true ∧
    a.payload.take (1 + totalWords recs) = CONTAINER_MAGIC :: recs.flatten ∧
    (recs = [] → a.meta.index_offset = 0) ∧
    (recs ≠ [] → a.meta.index_offset = wordBytes * (1 + totalWords recs) ∧
      storedIndex a = endOffsets wordBytes recs) := by
  by_cases h0 : recs.length = 0
  · have hnil : recs = [] := List.length_eq_zero.mp h0
    subst hnil
    simp only [reprB, List.length_nil, if_true, eq_self_iff_true, Bool.and_eq_true,
      decide_eq_true_eq] at h
    obtain ⟨⟨⟨⟨hA, hB⟩, hC⟩, hD⟩, hE⟩ := h
    exact ⟨hA, hB, hC, hD, fun _ => hE, fun hne => absurd rfl hne⟩
  · have hne : recs ≠ [] := fun hnil => h0 (by simp [hnil])
    simp only [reprB, if_neg h0, Bool.and_eq_true, decide_eq_true_eq] at h
    obtain ⟨⟨⟨⟨hA, hB⟩, hC⟩, hD⟩, hE1, hE2⟩ := h
    exact ⟨hA, hB, hC, hD, fun hnil => absurd hnil hne, fun _ => ⟨hE1, hE2⟩⟩

/-- Assemble the representation invariant from its components. -/
theorem reprB_intro {a : Arena} {recs : List (List Nat)}
    (hA : recsWF recs = true) (hB : a.meta.block_count = recs.length)
    (hC : a.meta.has_index = true)
    (hD : a.payload.take (1 + totalWords recs) = CONTAINER_MAGIC :: recs.flatten)
    (hE : recs = [] → a.meta.index_offset = 0)
    (hF : recs ≠ [] → a.meta.index_offset = wordBytes * (1 + totalWords recs) ∧
      storedIndex a = endOffsets wordBytes recs) :
    reprB a recs = true := by
  by_cases h0 : recs.length = 0
  · have hnil : recs = [] := List.length_eq_zero.mp h0
    simp [reprB, h0, hA, hB, hC, hD, hE hnil]
  · have hne : recs ≠ [] := fun hnil => h0 (by simp [hnil])
    obtain ⟨hF1, hF2⟩ := hF hne
    simp [reprB, h0, hA, hB, hC, hD, hF1, hF2]

/-- A consistent payload is at least as long as its magic and record region. -/
theorem repr_payload_len {a : Arena} {recs : List (List Nat)} (h : reprB a recs = true) :
    1 + totalWords recs ≤ a.payload.length := by
  have hD := (reprB_elim h).2.2.2.1
  have hl := congrArg List.length hD
  simp only [List.length_take, List.length_cons, totalWords_flatten] at hl
  omega

/-- A consistent payload decomposes as magic, packed records, and slack. -/
theorem repr_payload_decomp {a : Arena} {recs : List (List Nat)} (h : reprB a recs = true) :
    a.payload = [CONTAINER_MAGIC] ++ (recs.flatten ++ a.payload.drop (1 + totalWords recs)) := by
  conv_lhs => rw [← List.take_append_drop (1 + totalWords recs) a.payload]
  rw [(reprB_elim h).2.2.2.1]
  simp

/-- On a consistent container the index walk recomputes the end-offset
table of the packed records. -/
theorem create_index_repr {a : Arena} {recs : List (List Nat)} (h : reprB a recs = true) :
    create_index a = endOffsets wordBytes recs := by
  have hd := repr_payload_decomp h
  have hb := (reprB_elim h).2.1
  have hwf := (reprB_elim h).1
  unfold create_index
  rw [hb, hd]
  have hs := indexWalk_spec recs [CONTAINER_MAGIC] (a.payload.drop (1 + totalWords recs)) hwf
  simpa using hs

/-- On a consistent container the end of the packed data sits one word past
the magic marker plus all packed words. -/
theorem lastFragmentIndex_repr {a : Arena} {recs : List (List Nat)} (h : reprB a recs = true) :
    lastFragmentIndex a = wordBytes * (1 + totalWords recs) := by
  unfold lastFragmentIndex
  rw [create_index_repr h, endOffsets_getLastD]
  ring

/-- Read one stored table entry. -/
theorem storedIndex_getD (a : Arena) (i : Nat) (h : i < a.meta.block_count + 1) :
    (storedIndex a).getD i 0 = a.payload.getD (a.meta.index_offset / wordBytes + i) 0 := by
  unfold storedIndex
  exact getD_map_range _ _ _ _ h

/-- On a nonempty consistent container the stored table lies fully inside
the payload, starting one word past the packed data region. -/
theorem repr_table_bounds {a : Arena} {recs : List (List Nat)} (h : reprB a recs = true)
    (hne : recs ≠ []) :
    a.meta.index_offset / wordBytes + recs.length < a.payload.length ∧
    a.meta.index_offset / wordBytes = 1 + totalWords recs := by
  obtain ⟨hwf, hb, hc, hD, _, hF⟩ := reprB_elim h
  obtain ⟨hoff, hstored⟩ := hF hne
  have hdiv : a.meta.index_offset / wordBytes = 1 + totalWords recs := by
    rw [hoff]
    exact Nat.mul_div_cancel_left _ (by norm_num [wordBytes])
  refine ⟨?_, hdiv⟩
  have hlast : (storedIndex a).getD recs.length 0 =
      (endOffsets wordBytes recs).getD recs.length 0 := by rw [hstored]
  have hge : wordBytes ≤ (endOffsets wordBytes recs).getD recs.length 0 :=
    endOffsets_ge _ _ _ (le_refl _)
  by_contra hcon
  push_neg at hcon
  have h0 : (storedIndex a).getD recs.length 0 = 0 := by
    rw [storedIndex_getD a recs.length (by rw [hb]; omega)]
    exact List.getD_eq_default _ _ (by omega)
  rw [h0] at hlast
  rw [← hlast] at hge
  norm_num [wordBytes] at hge

/-- Frame facts about addSpace: metadata and type tag untouched, payload
grows to the cushioned word count, covering the request. -/
theorem addSpace_spec (a : Arena) (bytes : Nat) :
    (addSpace a bytes).meta = a.meta ∧ (addSpace a bytes).systemType = a.systemType ∧
    a.payload.length ≤ (addSpace a bytes).payload.length ∧
    bytes + a.dataSizeBytes ≤ (addSpace a bytes).dataSizeBytes ∧
    cushionBytes (bytes + a.dataSizeBytes) ≤ (addSpace a bytes).dataSizeBytes := by
  unfold addSpace resizeBytesWithCushion Arena.dataSizeBytes
  refine ⟨rfl, rfl, ?_, ?_, ?_⟩
  · rw [resizeWords_length]
    unfold cushionBytes wordBytes
    omega
  · rw [resizeWords_length]
    unfold cushionBytes wordBytes
    omega
  · rw [resizeWords_length]
    unfold cushionBytes wordBytes
    omega

/-- Growing preserves in-bounds payload reads. -/
theorem addSpace_getD (a : Arena) (bytes i d : Nat) (hi : i < a.payload.length) :
    (addSpace a bytes).payload.getD i d = a.payload.getD i d := by
  have hge := (addSpace_spec a bytes).2.2.1
  unfold addSpace resizeBytesWithCushion at hge ⊢
  rw [resizeWords_getD a _ i d hi (by rw [resizeWords_length] at hge; omega)]

/-- Growing preserves any in-bounds front of the payload. -/
theorem addSpace_take (a : Arena) (bytes k : Nat) (hk : k ≤ a.payload.length) :
    (addSpace a bytes).payload.take k = a.payload.take k := by
  have hge := (addSpace_spec a bytes).2.2.1
  unfold addSpace resizeBytesWithCushion at hge ⊢
  rw [resizeWords_take a _ k (by rw [resizeWords_length] at hge; omega) hk]

/-- Growing preserves the representation invariant. -/
theorem addSpace_repr {a : Arena} {recs : List (List Nat)} (h : reprB a recs = true)
    (bytes : Nat) :
    reprB (addSpace a bytes) recs = true := by
  obtain ⟨hwf, hb, hc, hD, hE, hF⟩ := reprB_elim h
  obtain ⟨hm, hst, hlen, hcov, hcush⟩ := addSpace_spec a bytes
  refine reprB_intro hwf (by rw [hm]; exact hb) (by rw [hm]; exact hc) ?_ ?_ ?_
  · rw [addSpace_take a bytes _ (repr_payload_len h)]
    exact hD
  · intro hnil
    rw [hm]
    exact hE hnil
  · intro hne
    obtain ⟨hoff, hstored⟩ := hF hne
    obtain ⟨hbound, _⟩ := repr_table_bounds h hne
    refine ⟨by rw [hm]; exact hoff, ?_⟩
    rw [← hstored]
    unfold storedIndex
    rw [hm]
    refine List.map_congr_left ?_
    intro i hi
    have hilt : i < recs.length + 1 := by
      rw [← hb]
      simpa using hi
    exact addSpace_getD a bytes _ 0 (by omega)

/-- Appending one wellformed record keeps the record list wellformed. -/
theorem recsWF_append (recs : List (List Nat)) (w : List Nat) (h1 : recsWF recs = true)
    (h2 : w ≠ []) (h3 : hdrWordCount (w.headD 0) = w.length) :
    recsWF (recs ++ [w]) = true := by
  induction recs with
  | nil =>
    have h3x : hdrWordCount (w.head?.getD 0) = w.length := by
      cases w with
      | nil => exact absurd rfl h2
      | cons x t => exact h3
    simp [recsWF, h2, h3x]
  | cons r rs ih =>
    simp only [recsWF, Bool.and_eq_true] at h1 ⊢
    exact ⟨h1.1, ih h1.2⟩

/-- Appending one record adds its length to the total word count. -/
theorem totalWords_append (recs : List (List Nat)) (w : List Nat) :
    totalWords (recs ++ [w]) = totalWords recs + w.length := by
  simp [totalWords]

/-- The index walk recomputes the end-offset table from any state whose
record region is laid out, whatever the metadata bits say. -/
theorem create_index_of_take {a : Arena} {recs : List (List Nat)}
    (hb : a.meta.block_count = recs.length) (hwf : recsWF recs = true)
    (hD : a.payload.take (1 + totalWords recs) = CONTAINER_MAGIC :: recs.flatten) :
    create_index a = endOffsets wordBytes recs := by
  have hd : a.payload =
      [CONTAINER_MAGIC] ++ (recs.flatten ++ a.payload.drop (1 + totalWords recs)) := by
    conv_lhs => rw [← List.take_append_drop (1 + totalWords recs) a.payload]
    rw [hD]
    simp
  unfold create_index
  rw [hb, hd]
  simpa using indexWalk_spec recs [CONTAINER_MAGIC] _ hwf

/-- The growth step of the single-record add: preserves the invariant,
leaves the metadata and type tag alone, and ends with enough capacity for
the record and the new table. -/
theorem growIfNeeded_spec {a : Arena} {recs : List (List Nat)} (h : reprB a recs = true)
    (f : Frag) :
    reprB (growIfNeeded a f) recs = true ∧
    (growIfNeeded a f).meta = a.meta ∧
    (growIfNeeded a f).systemType = a.systemType ∧
    requiredBytes a f ≤ (growIfNeeded a f).dataSizeBytes ∧
    a.payload.length ≤ (growIfNeeded a f).payload.length := by
  unfold growIfNeeded
  by_cases hg : a.dataSizeBytes < requiredBytes a f
  · rw [if_pos hg]
    obtain ⟨hm, hs, hlen, hcov, hcush⟩ := addSpace_spec a (requiredBytes a f - a.dataSizeBytes)
    exact ⟨addSpace_repr h _, hm, hs, by omega, hlen⟩
  · rw [if_neg hg]
    exact ⟨h, rfl, rfl, by omega, le_refl _⟩

/-- The index rebuild tail establishes the invariant on any state whose
record region is laid out, whose block count matches, and whose payload has
room for the table right after the packed data. -/
theorem finishIndex_spec (b : Arena) (recs : List (List Nat))
    (hwf : recsWF recs = true) (hne : recs ≠ [])
    (hb : b.meta.block_count = recs.length)
    (hD : b.payload.take (1 + totalWords recs) = CONTAINER_MAGIC :: recs.flatten)
    (hcap : 1 + totalWords recs + (recs.length + 1) ≤ b.payload.length) :
    reprB (finishIndex b) recs = true ∧
    (finishIndex b).meta.fragment_type = b.meta.fragment_type ∧
    (finishIndex b).meta.missing_data = b.meta.missing_data ∧
    (finishIndex b).meta.version = b.meta.version ∧
    (finishIndex b).meta.block_count = b.meta.block_count ∧
    (finishIndex b).systemType = b.systemType ∧
    (finishIndex b).payload.length = b.payload.length := by
  have hidx : create_index b = endOffsets wordBytes recs := create_index_of_take hb hwf hD
  have hlen_idx : (create_index b).length = recs.length + 1 := by
    rw [hidx]
    exact endOffsets_length _ _
  have hoffv : (create_index b).getD (b.meta.block_count - 1) 0 =
      wordBytes * (1 + totalWords recs) := by
    rw [hidx, hb, endOffsets_getD_last _ _ hne]
    ring
  have hfin : finishIndex b = setHasIndexA
      (writeAt (setIndexOffsetA b ((create_index b).getD (b.meta.block_count - 1) 0))
        ((create_index b).getD (b.meta.block_count - 1) 0 / wordBytes)
        (create_index b)) true := rfl
  have hdiv : (create_index b).getD (b.meta.block_count - 1) 0 / wordBytes =
      1 + totalWords recs := by
    rw [hoffv]
    exact Nat.mul_div_cancel_left _ (by norm_num [wordBytes])
  have hfinp : (finishIndex b).payload =
      writeList b.payload (1 + totalWords recs) (create_index b) := by
    rw [hfin, hdiv]
    rfl
  have hinb : 1 + totalWords recs + (create_index b).length ≤ b.payload.length := by
    rw [hlen_idx]
    omega
  have hlenf : (finishIndex b).payload.length = b.payload.length := by
    rw [hfinp]
    exact writeList_length _ _ _ hinb
  have htakef : (finishIndex b).payload.take (1 + totalWords recs) =
      CONTAINER_MAGIC :: recs.flatten := by
    rw [hfinp, writeList_take_left _ _ _ _ (le_refl _) (by omega)]
    exact hD
  have hbc : (finishIndex b).meta.block_count = b.meta.block_count := by
    rw [hfin]
    rfl
  have hio : (finishIndex b).meta.index_offset = wordBytes * (1 + totalWords recs) := by
    rw [hfin]
    exact hoffv
  have hstored : storedIndex (finishIndex b) = endOffsets wordBytes recs := by
    rw [← hidx]
    unfold storedIndex
    rw [hbc, hb, ← hlen_idx]
    refine Eq.trans (List.map_congr_left ?_) (map_range_getD (create_index b))
    intro i hi
    have hilt : i < (create_index b).length := by simpa using hi
    rw [hio, hfinp]
    have hdiv2 : wordBytes * (1 + totalWords recs) / wordBytes = 1 + totalWords recs :=
      Nat.mul_div_cancel_left _ (by norm_num [wordBytes])
    rw [hdiv2]
    exact writeList_getD _ _ _ _ _ (by omega) hilt
  refine ⟨?_, by rw [hfin]; rfl, by rw [hfin]; rfl, by rw [hfin]; rfl, hbc,
    by rw [hfin]; rfl, hlenf⟩
  refine reprB_intro hwf (by rw [hbc, hb]) (by rw [hfin]; rfl) htakef
    (fun hnil => absurd hnil hne) (fun _ => ⟨hio, hstored⟩)

/-- The single-record body appends the record and reestablishes the
invariant, leaving the other metadata fields and the type tag alone. -/
theorem addFragmentBody_spec {a : Arena} {recs : List (List Nat)} {f : Frag}
    (hrep : reprB a recs = true) (hf : fragWF f = true) :
    reprB (addFragmentBody a f) (recs ++ [f.words]) = true ∧
    (addFragmentBody a f).meta.fragment_type = a.meta.fragment_type ∧
    (addFragmentBody a f).meta.missing_data = a.meta.missing_data ∧
    (addFragmentBody a f).meta.version = a.meta.version ∧
    (addFragmentBody a f).systemType = a.systemType := by
  obtain ⟨hfl, hfpos⟩ : f.words.length = f.sizeWords ∧ 0 < f.sizeWords := by
    simpa [fragWF] using hf
  have htake : f.words.take f.sizeWords = f.words := by
    rw [← hfl]
    exact List.take_length f.words
  obtain ⟨hg_repr, hg_meta, hg_sys, hg_cap, hg_len⟩ := growIfNeeded_spec hrep f
  obtain ⟨hwf2, hb2, hc2, hD2, _, _⟩ := reprB_elim hg_repr
  have hlast2 : lastFragmentIndex (growIfNeeded a f) = wordBytes * (1 + totalWords recs) :=
    lastFragmentIndex_repr hg_repr
  have hlastA : lastFragmentIndex a = wordBytes * (1 + totalWords recs) :=
    lastFragmentIndex_repr hrep
  have hbA : a.meta.block_count = recs.length := (reprB_elim hrep).2.1
  have hcapw : 1 + totalWords recs + f.sizeWords + (recs.length + 2) ≤
      (growIfNeeded a f).payload.length := by
    have hc := hg_cap
    unfold requiredBytes Frag.sizeBytes at hc
    rw [hlastA, hbA] at hc
    have hds : (growIfNeeded a f).dataSizeBytes =
        wordBytes * (growIfNeeded a f).payload.length := rfl
    rw [hds] at hc
    have h8 : wordBytes = 8 := rfl
    rw [h8] at hc
    omega
  have hdiv2 : lastFragmentIndex (growIfNeeded a f) / wordBytes = 1 + totalWords recs := by
    rw [hlast2]
    exact Nat.mul_div_cancel_left _ (by norm_num [wordBytes])
  have ha3p : (writeAt (growIfNeeded a f) (lastFragmentIndex (growIfNeeded a f) / wordBytes)
      (f.words.take f.sizeWords)).payload =
      writeList (growIfNeeded a f).payload (1 + totalWords recs) f.words := by
    rw [htake, hdiv2]
    rfl
  have htake3 : (writeAt (growIfNeeded a f) (lastFragmentIndex (growIfNeeded a f) / wordBytes)
      (f.words.take f.sizeWords)).payload.take (1 + totalWords (recs ++ [f.words])) =
      CONTAINER_MAGIC :: (recs ++ [f.words]).flatten := by
    rw [ha3p]
    have h1 : 1 + totalWords (recs ++ [f.words]) = (1 + totalWords recs) + f.words.length := by
      rw [totalWords_append]
      omega
    rw [h1, writeList_take_concat _ _ _ (by omega), hD2]
    simp
  have hlen3 : (writeAt (growIfNeeded a f) (lastFragmentIndex (growIfNeeded a f) / wordBytes)
      (f.words.take f.sizeWords)).payload.length = (growIfNeeded a f).payload.length := by
    rw [ha3p]
    exact writeList_length _ _ _ (by omega)
  have hbody : addFragmentBody a f = finishIndex
      (setBlockCountA (setHasIndexA (writeAt (growIfNeeded a f)
        (lastFragmentIndex (growIfNeeded a f) / wordBytes) (f.words.take f.sizeWords)) false)
        ((growIfNeeded a f).meta.block_count + 1)) := rfl
  have hwne : f.words ≠ [] := by
    intro hnil
    rw [hnil] at hfl
    simp at hfl
    omega
  have hwcount : hdrWordCount (f.words.headD 0) = f.words.length := by
    rw [hfl]
    rfl
  have hwf3 := recsWF_append recs f.words (reprB_elim hrep).1 hwne hwcount
  have hbgoal : (growIfNeeded a f).meta.block_count + 1 = (recs ++ [f.words]).length := by
    rw [hb2]
    simp
  have hcapgoal : 1 + totalWords (recs ++ [f.words]) + ((recs ++ [f.words]).length + 1) ≤
      (writeAt (growIfNeeded a f) (lastFragmentIndex (growIfNeeded a f) / wordBytes)
        (f.words.take f.sizeWords)).payload.length := by
    rw [hlen3, totalWords_append]
    simp only [List.length_append, List.length_singleton]
    omega
  obtain ⟨hr, hft, hmd, hv, hbcq, hst, hlq⟩ := finishIndex_spec
    (setBlockCountA (setHasIndexA (writeAt (growIfNeeded a f)
      (lastFragmentIndex (growIfNeeded a f) / wordBytes) (f.words.take f.sizeWords)) false)
      ((growIfNeeded a f).meta.block_count + 1))
    (recs ++ [f.words]) hwf3 (by simp) hbgoal htake3 hcapgoal
  rw [hbody]
  refine ⟨hr, ?_, ?_, ?_, ?_⟩
  · rw [hft]
    show (growIfNeeded a f).meta.fragment_type = a.meta.fragment_type
    rw [hg_meta]
  · rw [hmd]
    show (growIfNeeded a f).meta.missing_data = a.meta.missing_data
    rw [hg_meta]
  · rw [hv]
    show (growIfNeeded a f).meta.version = a.meta.version
    rw [hg_meta]
  · rw [hst]
    show (growIfNeeded a f).systemType = a.systemType
    rw [hg_sys]

/-- A successful type check changes at most the fragment_type field,
adopting the record type exactly when the container type was the empty
sentinel. -/
theorem typeCheck_ok_state {a : Arena} {t : Nat} {allow : Bool} {a1 : Arena}
    (h : typeCheck a t allow = .ok a1) :
    a1.payload = a.payload ∧ a1.meta.block_count = a.meta.block_count ∧
    a1.meta.has_index = a.meta.has_index ∧ a1.meta.index_offset = a.meta.index_offset ∧
    a1.meta.missing_data = a.meta.missing_data ∧ a1.meta.version = a.meta.version ∧
    a1.meta.fragment_type = (if a.meta.fragment_type = EmptyFragmentType then t
      else a.meta.fragment_type) ∧
    a1.systemType = a.systemType := by
  unfold typeCheck at h
  by_cases h1 : a.meta.fragment_type = EmptyFragmentType
  · rw [if_pos h1] at h
    injection h with h
    subst h
    simp [set_fragment_type, h1]
  · rw [if_neg h1] at h
    by_cases h2 : allow = false ∧ t ≠ a.meta.fragment_type
    · rw [if_pos h2] at h
      cases h
    · rw [if_neg h2] at h
      injection h with h
      subst h
      simp [h1]

/-- A failing type check is the WrongFragmentType rejection, carrying the
untouched arena and certifying the violated policy. -/
theorem typeCheck_err {a : Arena} {t : Nat} {allow : Bool} {e : CFLErr} {s : Arena}
    (h : typeCheck a t allow = .error (e, s)) :
    e = CFLErr.WrongFragmentType ∧ s = a ∧ a.meta.fragment_type ≠ EmptyFragmentType ∧
    allow = false ∧ t ≠ a.meta.fragment_type := by
  unfold typeCheck at h
  by_cases h1 : a.meta.fragment_type = EmptyFragmentType
  · rw [if_pos h1] at h
    cases h
  · rw [if_neg h1] at h
    by_cases h2 : allow = false ∧ t ≠ a.meta.fragment_type
    · rw [if_pos h2] at h
      injection h with h
      injection h with he hs
      exact ⟨he.symm, hs.symm, h1, h2.1, h2.2⟩
    · rw [if_neg h2] at h
      cases h

/-- The invariant only reads the payload, block_count, has_index and
index_offset, so it transfers across states agreeing on those. -/
theorem reprB_of_eq {a a2 : Arena} {recs : List (List Nat)} (h : reprB a recs = true)
    (hp : a2.payload = a.payload) (hb : a2.meta.block_count = a.meta.block_count)
    (hh : a2.meta.has_index = a.meta.has_index)
    (hi : a2.meta.index_offset = a.meta.index_offset) :
    reprB a2 recs = true := by
  obtain ⟨hA, hB, hC, hD, hE, hF⟩ := reprB_elim h
  refine reprB_intro hA (by rw [hb, hB]) (by rw [hh, hC]) (by rw [hp]; exact hD)
    (fun hnil => by rw [hi]; exact hE hnil) (fun hne => ?_)
  obtain ⟨h1, h2⟩ := hF hne
  refine ⟨by rw [hi]; exact h1, ?_⟩
  rw [← h2]
  unfold storedIndex
  rw [hp, hb, hi]

/-- The growth step never touches the metadata slot. -/
theorem growIfNeeded_meta (a : Arena) (f : Frag) :
    (growIfNeeded a f).meta = a.meta ∧ (growIfNeeded a f).systemType = a.systemType := by
  unfold growIfNeeded
  split
  · exact ⟨rfl, rfl⟩
  · exact ⟨rfl, rfl⟩

/-- The single-record body, on any state: keeps fragment_type, missing_data,
version and the type tag, bumps block_count by one, and ends with has_index
set. -/
theorem addFragmentBody_framePure (a : Arena) (f : Frag) :
    (addFragmentBody a f).meta.fragment_type = a.meta.fragment_type ∧
    (addFragmentBody a f).meta.missing_data = a.meta.missing_data ∧
    (addFragmentBody a f).meta.version = a.meta.version ∧
    (addFragmentBody a f).meta.block_count = a.meta.block_count + 1 ∧
    (addFragmentBody a f).meta.has_index = true ∧
    (addFragmentBody a f).systemType = a.systemType := by
  obtain ⟨hm, hs⟩ := growIfNeeded_meta a f
  unfold addFragmentBody finishIndex
  simp [writeAt, setHasIndexA, setBlockCountA, setIndexOffsetA, hm, hs]

/-- Nonempty record lists survive appending batch words. -/
theorem recsWF_append_frags (recs : List (List Nat)) (fs : List Frag)
    (h1 : recsWF recs = true) (h2 : fragsWF fs = true) :
    recsWF (recs ++ fs.map Frag.words) = true := by
  induction fs generalizing recs with
  | nil => simpa using h1
  | cons f fs' ih =>
    simp only [fragsWF, Bool.and_eq_true] at h2
    obtain ⟨hfwf, hfs'⟩ := h2
    obtain ⟨hfl, hfpos⟩ : f.words.length = f.sizeWords ∧ 0 < f.sizeWords := by
      simpa [fragWF] using hfwf
    have hwne : f.words ≠ [] := by
      intro hnil
      rw [hnil] at hfl
      simp at hfl
      omega
    have hwcount : hdrWordCount (f.words.headD 0) = f.words.length := by
      rw [hfl]
      rfl
    have hstep := recsWF_append recs f.words h1 hwne hwcount
    have := ih (recs ++ [f.words]) hstep hfs'
    simpa [List.append_assoc] using this

/-- The batch byte total is the word total scaled by the word size. -/
theorem fragsSizeBytes_sum (fs : List Frag) :
    (fs.map Frag.sizeBytes).sum = wordBytes * (fs.map Frag.sizeWords).sum := by
  induction fs with
  | nil => simp
  | cons f fs' ih =>
    simp only [List.map_cons, List.sum_cons, ih, Frag.sizeBytes]
    ring

/-- Appending batch words adds the batch word total. -/
theorem totalWords_append_frags (recs : List (List Nat)) (fs : List Frag)
    (h : fragsWF fs = true) :
    totalWords (recs ++ fs.map Frag.words) = totalWords recs + (fs.map Frag.sizeWords).sum := by
  induction fs generalizing recs with
  | nil => simp
  | cons f fs' ih =>
    simp only [fragsWF, Bool.and_eq_true] at h
    obtain ⟨hfwf, hfs'⟩ := h
    obtain ⟨hfl, _⟩ : f.words.length = f.sizeWords ∧ 0 < f.sizeWords := by
      simpa [fragWF] using hfwf
    have := ih (recs ++ [f.words]) hfs'
    simp only [List.map_cons, List.sum_cons]
    rw [show recs ++ (f.words :: fs'.map Frag.words) = (recs ++ [f.words]) ++ fs'.map Frag.words
      by simp, this, totalWords_append, hfl]
    ring

/-- The copy loop of the batch add, on success: lays the batch words
contiguously after the existing region, changes no payload length, no
metadata field but the adopted fragment_type, and no type tag. -/
theorem copyLoop_ok_spec (fs : List Frag) (allow : Bool) :
    ∀ (a : Arena) (done : List Nat) (b : Arena),
    fragsWF fs = true →
    a.payload.take (1 + done.length) = CONTAINER_MAGIC :: done →
    1 + done.length + (fs.map Frag.sizeWords).sum ≤ a.payload.length →
    copyLoop a (wordBytes * (1 + done.length)) fs allow = .ok b →
    b.payload.take (1 + done.length + (fs.map Frag.sizeWords).sum) =
      CONTAINER_MAGIC :: (done ++ (fs.map Frag.words).flatten) ∧
    b.payload.length = a.payload.length ∧
    b.meta.block_count = a.meta.block_count ∧
    b.meta.has_index = a.meta.has_index ∧
    b.meta.index_offset = a.meta.index_offset ∧
    b.meta.missing_data = a.meta.missing_data ∧
    b.meta.version = a.meta.version ∧
    b.meta.fragment_type = adoptFold a.meta.fragment_type fs ∧
    b.systemType = a.systemType := by
  induction fs with
  | nil =>
    intro a done b _ hpre hcap hok
    unfold copyLoop at hok
    injection hok with hok
    subst hok
    simpa [adoptFold] using hpre
  | cons f fs' ih =>
    intro a done b hwf hpre hcap hok
    simp only [fragsWF, Bool.and_eq_true] at hwf
    obtain ⟨hfwf, hfs'⟩ := hwf
    obtain ⟨hfl, hfpos⟩ : f.words.length = f.sizeWords ∧ 0 < f.sizeWords := by
      simpa [fragWF] using hfwf
    have htakef : f.words.take f.sizeWords = f.words := by
      rw [← hfl]
      exact List.take_length f.words
    simp only [List.map_cons, List.sum_cons] at hcap
    unfold copyLoop at hok
    cases htc : typeCheck a f.type allow with
    | error e =>
      rw [htc] at hok
      cases hok
    | ok a1 =>
      rw [htc] at hok
      obtain ⟨hp1, hb1, hh1, hi1, hm1, hv1, hf1, hs1⟩ := typeCheck_ok_state htc
      have hdiv : wordBytes * (1 + done.length) / wordBytes = 1 + done.length :=
        Nat.mul_div_cancel_left _ (by norm_num [wordBytes])
      set a2 := writeAt a1 (wordBytes * (1 + done.length) / wordBytes)
        (f.words.take f.sizeWords) with ha2
      have ha2p : a2.payload = writeList a.payload (1 + done.length) f.words := by
        rw [ha2, hdiv, htakef]
        show writeList a1.payload (1 + done.length) f.words = _
        rw [hp1]
      have hlen2 : a2.payload.length = a.payload.length := by
        rw [ha2p]
        exact writeList_length _ _ _ (by omega)
      have hpre2 : a2.payload.take (1 + (done ++ f.words).length) =
          CONTAINER_MAGIC :: (done ++ f.words) := by
        rw [ha2p]
        have h1 : 1 + (done ++ f.words).length = (1 + done.length) + f.words.length := by
          simp
          omega
        rw [h1, writeList_take_concat _ _ _ (by omega), hpre]
        simp
      have hcap2 : 1 + (done ++ f.words).length + (fs'.map Frag.sizeWords).sum ≤
          a2.payload.length := by
        rw [hlen2]
        simp only [List.length_append]
        omega
      have hptr : wordBytes * (1 + done.length) + f.sizeBytes =
          wordBytes * (1 + (done ++ f.words).length) := by
        unfold Frag.sizeBytes
        rw [← hfl]
        simp only [List.length_append]
        ring
      rw [hptr] at hok
      obtain ⟨r1, r2, r3, r4, r5, r6, r7, r8, r9⟩ := ih a2 (done ++ f.words) b hfs' hpre2 hcap2 hok
      refine ⟨?_, by rw [r2, hlen2], by rw [r3]; exact hb1, by rw [r4]; exact hh1,
        by rw [r5]; exact hi1, by rw [r6]; exact hm1, by rw [r7]; exact hv1, ?_,
        by rw [r9]; exact hs1⟩
      · have hamt : 1 + done.length + ((f :: fs').map Frag.sizeWords).sum =
            1 + (done ++ f.words).length + (fs'.map Frag.sizeWords).sum := by
          simp only [List.map_cons, List.sum_cons, List.length_append]
          omega
        rw [hamt, r1]
        simp
      · rw [r8]
        show adoptFold a1.meta.fragment_type fs' = adoptFold a.meta.fragment_type (f :: fs')
        rw [hf1]
        rfl

/-- Whatever the copy loop does, ok or raise: writes land at or past the
cursor, so any front below the cursor survives, the payload never shrinks,
and only fragment_type among the metadata fields can change. -/
theorem copyLoop_frame (fs : List Frag) (allow : Bool) :
    ∀ (a : Arena) (ptr q : Nat),
    wordBytes * q ≤ ptr → q ≤ a.payload.length →
    (exceptArena (copyLoop a ptr fs allow)).payload.take q = a.payload.take q ∧
    a.payload.length ≤ (exceptArena (copyLoop a ptr fs allow)).payload.length ∧
    (exceptArena (copyLoop a ptr fs allow)).meta.block_count = a.meta.block_count ∧
    (exceptArena (copyLoop a ptr fs allow)).meta.has_index = a.meta.has_index ∧
    (exceptArena (copyLoop a ptr fs allow)).meta.index_offset = a.meta.index_offset ∧
    (exceptArena (copyLoop a ptr fs allow)).meta.missing_data = a.meta.missing_data ∧
    (exceptArena (copyLoop a ptr fs allow)).meta.version = a.meta.version ∧
    (exceptArena (copyLoop a ptr fs allow)).systemType = a.systemType := by
  induction fs with
  | nil =>
    intro a ptr q h1 h2
    simp [copyLoop, exceptArena]
  | cons f fs' ih =>
    intro a ptr q hq hqlen
    cases htc : typeCheck a f.type allow with
    | error e =>
      obtain ⟨ek, es⟩ := e
      obtain ⟨_, hs, _⟩ := typeCheck_err htc
      have hred : copyLoop a ptr (f :: fs') allow = .error (ek, es) := by
        simp only [copyLoop, htc]
      rw [hred]
      subst hs
      simp [exceptArena]
    | ok a1 =>
      have hred : copyLoop a ptr (f :: fs') allow =
          copyLoop (writeAt a1 (ptr / wordBytes) (f.words.take f.sizeWords))
            (ptr + f.sizeBytes) fs' allow := by
        simp only [copyLoop, htc]
      rw [hred]
      obtain ⟨hp1, hb1, hh1, hi1, hm1, hv1, hf1, hs1⟩ := typeCheck_ok_state htc
      have hqd : q ≤ ptr / wordBytes := by
        have h8 : wordBytes = 8 := rfl
        rw [h8] at hq ⊢
        omega
      have hlenge : a1.payload.length ≤
          (writeAt a1 (ptr / wordBytes) (f.words.take f.sizeWords)).payload.length :=
        writeList_length_ge _ _ _
      have hql2 : q ≤ (writeAt a1 (ptr / wordBytes) (f.words.take f.sizeWords)).payload.length := by
        rw [hp1] at hlenge
        omega
      have hq2 : wordBytes * q ≤ ptr + f.sizeBytes := le_trans hq (Nat.le_add_right _ _)
      obtain ⟨g1, g2, g3, g4, g5, g6, g7, g8⟩ :=
        ih (writeAt a1 (ptr / wordBytes) (f.words.take f.sizeWords)) (ptr + f.sizeBytes) q hq2 hql2
      have hw_take : (writeAt a1 (ptr / wordBytes) (f.words.take f.sizeWords)).payload.take q =
          a.payload.take q := by
        show (writeList a1.payload (ptr / wordBytes) (f.words.take f.sizeWords)).take q = _
        rw [writeList_take_left _ _ _ _ hqd (by rw [hp1]; exact hqlen), hp1]
      refine ⟨by rw [g1]; exact hw_take, ?_, by rw [g3]; exact hb1, by rw [g4]; exact hh1,
        by rw [g5]; exact hi1, by rw [g6]; exact hm1, by rw [g7]; exact hv1,
        by rw [g8]; exact hs1⟩
      rw [hp1] at hlenge
      omega

/-- The copy loop raises only the WrongFragmentType rejection. -/
theorem copyLoop_err_kind (fs : List Frag) (allow : Bool) :
    ∀ (a : Arena) (ptr : Nat) (e : CFLErr) (s : Arena),
    copyLoop a ptr fs allow = .error (e, s) → e = CFLErr.WrongFragmentType := by
  induction fs with
  | nil =>
    intro a ptr e s h
    cases h
  | cons f fs' ih =>
    intro a ptr e s h
    unfold copyLoop at h
    cases htc : typeCheck a f.type allow with
    | error e2 =>
      rw [htc] at h
      injection h with h2
      subst h2
      exact (typeCheck_err htc).1
    | ok a1 =>
      rw [htc] at h
      exact ih _ _ _ _ h

/-- The copy loop succeeds on every batch acceptable under the type policy. -/
theorem copyLoop_ok_exists (fs : List Frag) (allow : Bool) :
    ∀ (a : Arena) (ptr : Nat),
    typesAcceptable a.meta.fragment_type fs allow = true →
    ∃ b, copyLoop a ptr fs allow = .ok b := by
  induction fs with
  | nil =>
    intro a ptr _
    exact ⟨a, rfl⟩
  | cons f fs' ih =>
    intro a ptr hacc
    unfold typesAcceptable at hacc
    unfold copyLoop
    by_cases h1 : a.meta.fragment_type = EmptyFragmentType
    · rw [if_pos h1] at hacc
      have htc : typeCheck a f.type allow = .ok (set_fragment_type a f.type) := by
        unfold typeCheck
        rw [if_pos h1]
      rw [htc]
      exact ih _ _ hacc
    · rw [if_neg h1] at hacc
      by_cases h2 : allow = false ∧ f.type ≠ a.meta.fragment_type
      · rw [if_pos h2] at hacc
        simp at hacc
      · rw [if_neg h2] at hacc
        have htc : typeCheck a f.type allow = .ok a := by
          unfold typeCheck
          rw [if_neg h1, if_neg h2]
        rw [htc]
        exact ih _ _ hacc

/-- A successful single add factors through a successful type check and the
unconditional body. -/
theorem addFragment_ok_state {a : Arena} {f : Frag} {allow : Bool} {b : Arena}
    (h : addFragment a f allow = .ok b) :
    ∃ a1, typeCheck a f.type allow = .ok a1 ∧ b = addFragmentBody a1 f := by
  unfold addFragment at h
  cases htc : typeCheck a f.type allow with
  | error e =>
    rw [htc] at h
    cases h
  | ok a1 =>
    rw [htc] at h
    injection h with h
    exact ⟨a1, rfl, h.symm⟩

/-- A failing single add is the WrongFragmentType rejection of the type
check, raised before anything is copied, carrying the untouched arena. -/
theorem addFragment_err_state {a : Arena} {f : Frag} {allow : Bool} {e : CFLErr} {s : Arena}
    (h : addFragment a f allow = .error (e, s)) :
    e = CFLErr.WrongFragmentType ∧ s = a ∧ a.meta.fragment_type ≠ EmptyFragmentType ∧
    allow = false ∧ f.type ≠ a.meta.fragment_type := by
  unfold addFragment at h
  cases htc : typeCheck a f.type allow with
  | error e2 =>
    rw [htc] at h
    injection h with h2
    subst h2
    exact typeCheck_err htc
  | ok a1 =>
    rw [htc] at h
    cases h

/-- A successful single add appends the record, bumps block_count by one,
and adopts the record type exactly when the container type was the empty
sentinel. -/
theorem addFragment_ok_spec {a : Arena} {recs : List (List Nat)} {f : Frag} {allow : Bool}
    {b : Arena}
    (hrep : reprB a recs = true) (hf : fragWF f = true)
    (hok : addFragment a f allow = .ok b) :
    reprB b (recs ++ [f.words]) = true ∧
    b.meta.block_count = a.meta.block_count + 1 ∧
    b.meta.fragment_type = (if a.meta.fragment_type = EmptyFragmentType then f.type
      else a.meta.fragment_type) ∧
    b.meta.missing_data = a.meta.missing_data ∧
    b.meta.version = a.meta.version ∧
    b.systemType = a.systemType := by
  obtain ⟨a1, htc, hb⟩ := addFragment_ok_state hok
  obtain ⟨hp1, hb1, hh1, hi1, hm1, hv1, hf1, hs1⟩ := typeCheck_ok_state htc
  have hrep1 : reprB a1 recs = true := reprB_of_eq hrep hp1 hb1 hh1 hi1
  obtain ⟨hr, hft, hmd, hv, hsys⟩ := addFragmentBody_spec hrep1 hf
  obtain ⟨pf1, pf2, pf3, pf4, pf5, pf6⟩ := addFragmentBody_framePure a1 f
  subst hb
  exact ⟨hr, by rw [pf4, hb1], by rw [pf1, hf1], by rw [pf2, hm1], by rw [pf3, hv1],
    by rw [pf6, hs1]⟩

/-- The single add succeeds whenever the record is acceptable under the
type policy. -/
theorem addFragment_ok_exists (a : Arena) (f : Frag) (allow : Bool)
    (hacc : a.meta.fragment_type = EmptyFragmentType ∨ allow = true ∨
      f.type = a.meta.fragment_type) :
    ∃ b, addFragment a f allow = .ok b := by
  unfold addFragment
  by_cases h1 : a.meta.fragment_type = EmptyFragmentType
  · have htc : typeCheck a f.type allow = .ok (set_fragment_type a f.type) := by
      unfold typeCheck
      rw [if_pos h1]
    rw [htc]
    exact ⟨_, rfl⟩
  · have h2 : ¬(allow = false ∧ f.type ≠ a.meta.fragment_type) := by
      rcases hacc with h | h | h
      · exact absurd h h1
      · simp [h]
      · simp [h]
    have htc : typeCheck a f.type allow = .ok a := by
      unfold typeCheck
      rw [if_neg h1, if_neg h2]
    rw [htc]
    exact ⟨_, rfl⟩

/-- Sequential single adds of a batch: same content result as claimed for
the batch path. -/
theorem foldAdd_ok_spec (fs : List Frag) (allow : Bool) :
    ∀ (a : Arena) (recs : List (List Nat)) (b : Arena),
    reprB a recs = true → fragsWF fs = true →
    foldAdd a fs allow = .ok b →
    reprB b (recs ++ fs.map Frag.words) = true ∧
    b.meta.block_count = a.meta.block_count + fs.length ∧
    b.meta.fragment_type = adoptFold a.meta.fragment_type fs ∧
    b.meta.missing_data = a.meta.missing_data ∧
    b.meta.version = a.meta.version ∧
    b.systemType = a.systemType := by
  induction fs with
  | nil =>
    intro a recs b hrep _ hok
    injection hok with hok
    subst hok
    simpa [adoptFold] using hrep
  | cons f fs' ih =>
    intro a recs b hrep hwf hok
    simp only [fragsWF, Bool.and_eq_true] at hwf
    obtain ⟨hfwf, hfs'⟩ := hwf
    unfold foldAdd at hok
    cases haf : addFragment a f allow with
    | error e =>
      rw [haf] at hok
      cases hok
    | ok m =>
      rw [haf] at hok
      obtain ⟨h1r, h1b, h1f, h1m, h1v, h1s⟩ := addFragment_ok_spec hrep hfwf haf
      obtain ⟨r1, r2, r3, r4, r5, r6⟩ := ih m (recs ++ [f.words]) b h1r hfs' hok
      rw [show (recs ++ [f.words]) ++ fs'.map Frag.words = recs ++ (f :: fs').map Frag.words
        by simp] at r1
      refine ⟨r1, ?_, ?_, by rw [r4, h1m], by rw [r5, h1v], by rw [r6, h1s]⟩
      · rw [r2, h1b]
        simp only [List.length_cons]
        omega
      · rw [r3, h1f]
        rfl

/-- Sequential single adds succeed on every acceptable batch. -/
theorem foldAdd_ok_exists (fs : List Frag) (allow : Bool) :
    ∀ (a : Arena), typesAcceptable a.meta.fragment_type fs allow = true →
    ∃ b, foldAdd a fs allow = .ok b := by
  induction fs with
  | nil =>
    intro a _
    exact ⟨a, rfl⟩
  | cons f fs' ih =>
    intro a hacc
    unfold typesAcceptable at hacc
    by_cases h1 : a.meta.fragment_type = EmptyFragmentType
    · rw [if_pos h1] at hacc
      have htc : typeCheck a f.type allow = .ok (set_fragment_type a f.type) := by
        unfold typeCheck
        rw [if_pos h1]
      have haf : addFragment a f allow = .ok (addFragmentBody (set_fragment_type a f.type) f) := by
        unfold addFragment
        rw [htc]
      have hft : (addFragmentBody (set_fragment_type a f.type) f).meta.fragment_type = f.type := by
        rw [(addFragmentBody_framePure _ _).1]
        rfl
      obtain ⟨b, hb⟩ := ih _ (by rw [hft]; exact hacc)
      refine ⟨b, ?_⟩
      unfold foldAdd
      rw [haf]
      exact hb
    · rw [if_neg h1] at hacc
      by_cases h2 : allow = false ∧ f.type ≠ a.meta.fragment_type
      · rw [if_pos h2] at hacc
        simp at hacc
      · rw [if_neg h2] at hacc
        have htc : typeCheck a f.type allow = .ok a := by
          unfold typeCheck
          rw [if_neg h1, if_neg h2]
        have haf : addFragment a f allow = .ok (addFragmentBody a f) := by
          unfold addFragment
          rw [htc]
        have hft : (addFragmentBody a f).meta.fragment_type = a.meta.fragment_type :=
          (addFragmentBody_framePure _ _).1
        obtain ⟨b, hb⟩ := ih _ (by rw [hft]; exact hacc)
        refine ⟨b, ?_⟩
        unfold foldAdd
        rw [haf]
        exact hb

/-- Reduce the batch add to its growth step, copy loop and index tail. -/
theorem addFragments_red (a : Arena) (fs : List Frag) (allow : Bool) :
    addFragments a fs allow =
      (match copyLoop
          (if a.dataSizeBytes < lastFragmentIndex a + (fs.map Frag.sizeBytes).sum +
              wordBytes * (a.meta.block_count + 1 + fs.length)
           then addSpace a (lastFragmentIndex a + (fs.map Frag.sizeBytes).sum +
              wordBytes * (a.meta.block_count + 1 + fs.length) - a.dataSizeBytes)
           else a)
          (lastFragmentIndex
            (if a.dataSizeBytes < lastFragmentIndex a + (fs.map Frag.sizeBytes).sum +
                wordBytes * (a.meta.block_count + 1 + fs.length)
             then addSpace a (lastFragmentIndex a + (fs.map Frag.sizeBytes).sum +
                wordBytes * (a.meta.block_count + 1 + fs.length) - a.dataSizeBytes)
             else a)) fs allow with
       | .error e => .error e
       | .ok a2 => .ok (finishIndex (setBlockCountA (setHasIndexA a2 false)
           (a2.meta.block_count + fs.length)))) := rfl

/-- The growth step of the batch add preserves the invariant and covers the
whole batch plus the new table. -/
theorem addFragments_grow_spec {a : Arena} {recs : List (List Nat)} (fs : List Frag)
    (hrep : reprB a recs = true) :
    reprB (if a.dataSizeBytes < lastFragmentIndex a + (fs.map Frag.sizeBytes).sum +
        wordBytes * (a.meta.block_count + 1 + fs.length)
      then addSpace a (lastFragmentIndex a + (fs.map Frag.sizeBytes).sum +
        wordBytes * (a.meta.block_count + 1 + fs.length) - a.dataSizeBytes)
      else a) recs = true ∧
    (if a.dataSizeBytes < lastFragmentIndex a + (fs.map Frag.sizeBytes).sum +
        wordBytes * (a.meta.block_count + 1 + fs.length)
      then addSpace a (lastFragmentIndex a + (fs.map Frag.sizeBytes).sum +
        wordBytes * (a.meta.block_count + 1 + fs.length) - a.dataSizeBytes)
      else a).meta = a.meta ∧
    (if a.dataSizeBytes < lastFragmentIndex a + (fs.map Frag.sizeBytes).sum +
        wordBytes * (a.meta.block_count + 1 + fs.length)
      then addSpace a (lastFragmentIndex a + (fs.map Frag.sizeBytes).sum +
        wordBytes * (a.meta.block_count + 1 + fs.length) - a.dataSizeBytes)
      else a).systemType = a.systemType ∧
    lastFragmentIndex a + (fs.map Frag.sizeBytes).sum +
        wordBytes * (a.meta.block_count + 1 + fs.length) ≤
      (if a.dataSizeBytes < lastFragmentIndex a + (fs.map Frag.sizeBytes).sum +
          wordBytes * (a.meta.block_count + 1 + fs.length)
        then addSpace a (lastFragmentIndex a + (fs.map Frag.sizeBytes).sum +
          wordBytes * (a.meta.block_count + 1 + fs.length) - a.dataSizeBytes)
        else a).dataSizeBytes ∧
    a.payload.length ≤
      (if a.dataSizeBytes < lastFragmentIndex a + (fs.map Frag.sizeBytes).sum +
          wordBytes * (a.meta.block_count + 1 + fs.length)
        then addSpace a (lastFragmentIndex a + (fs.map Frag.sizeBytes).sum +
          wordBytes * (a.meta.block_count + 1 + fs.length) - a.dataSizeBytes)
        else a).payload.length := by
  split
  · next hg =>
    obtain ⟨hm, hs, hlen, hcov, hcush⟩ :=
      addSpace_spec a (lastFragmentIndex a + (fs.map Frag.sizeBytes).sum +
        wordBytes * (a.meta.block_count + 1 + fs.length) - a.dataSizeBytes)
    exact ⟨addSpace_repr hrep _, hm, hs, by omega, hlen⟩
  · next hg =>
    exact ⟨hrep, rfl, rfl, by omega, le_refl _⟩

/-- A successful batch add appends all batch records, bumps block_count by
the batch size in one step, adopts types in order, and reestablishes the
invariant. -/
theorem addFragments_ok_spec {a : Arena} {recs : List (List Nat)} {fs : List Frag}
    {allow : Bool} {b : Arena}
    (hrep : reprB a recs = true) (hwf : fragsWF fs = true)
    (hne : recs ≠ [] ∨ fs ≠ [])
    (hok : addFragments a fs allow = .ok b) :
    reprB b (recs ++ fs.map Frag.words) = true ∧
    b.meta.block_count = a.meta.block_count + fs.length ∧
    b.meta.fragment_type = adoptFold a.meta.fragment_type fs ∧
    b.meta.missing_data = a.meta.missing_data ∧
    b.meta.version = a.meta.version ∧
    b.systemType = a.systemType := by
  obtain ⟨hwfr, hbA, hcA, hDA, hEA, hFA⟩ := reprB_elim hrep
  obtain ⟨hrep1, hm1, hs1, hcap1, hlen1⟩ := addFragments_grow_spec fs hrep
  have hlastA : lastFragmentIndex a = wordBytes * (1 + totalWords recs) :=
    lastFragmentIndex_repr hrep
  rw [addFragments_red] at hok
  set a1 := (if a.dataSizeBytes < lastFragmentIndex a + (fs.map Frag.sizeBytes).sum +
      wordBytes * (a.meta.block_count + 1 + fs.length)
    then addSpace a (lastFragmentIndex a + (fs.map Frag.sizeBytes).sum +
      wordBytes * (a.meta.block_count + 1 + fs.length) - a.dataSizeBytes)
    else a) with ha1
  have hlast1 : lastFragmentIndex a1 = wordBytes * (1 + totalWords recs) :=
    lastFragmentIndex_repr hrep1
  obtain ⟨_, hb1, _, hD1, _, _⟩ := reprB_elim hrep1
  cases hcl : copyLoop a1 (lastFragmentIndex a1) fs allow with
  | error e =>
    rw [hcl] at hok
    cases hok
  | ok a2 =>
    rw [hcl] at hok
    injection hok with hok
    have hflen : recs.flatten.length = totalWords recs := totalWords_flatten recs
    have h8 : wordBytes = 8 := rfl
    have hds : a1.dataSizeBytes = wordBytes * a1.payload.length := rfl
    rw [hds, hlastA, fragsSizeBytes_sum, h8, hbA] at hcap1
    have hcapw1 : 1 + recs.flatten.length + (fs.map Frag.sizeWords).sum ≤ a1.payload.length := by
      rw [hflen]
      omega
    have hpre1 : a1.payload.take (1 + recs.flatten.length) = CONTAINER_MAGIC :: recs.flatten := by
      rw [hflen]
      exact hD1
    have hclw : copyLoop a1 (wordBytes * (1 + recs.flatten.length)) fs allow = .ok a2 := by
      rw [show wordBytes * (1 + recs.flatten.length) = lastFragmentIndex a1 by
        rw [hlast1, hflen]]
      exact hcl
    obtain ⟨c1, c2, c3, c4, c5, c6, c7, c8, c9⟩ :=
      copyLoop_ok_spec fs allow a1 recs.flatten a2 hwf hpre1 hcapw1 hclw
    have hT2 : totalWords (recs ++ fs.map Frag.words) =
        totalWords recs + (fs.map Frag.sizeWords).sum := totalWords_append_frags recs fs hwf
    have hwf2 := recsWF_append_frags recs fs hwfr hwf
    have hne2 : recs ++ fs.map Frag.words ≠ [] := by
      intro hnil
      rw [List.append_eq_nil] at hnil
      rcases hne with h | h
      · exact h hnil.1
      · exact h (List.map_eq_nil_iff.mp hnil.2)
    have hb3 : a2.meta.block_count + fs.length = (recs ++ fs.map Frag.words).length := by
      rw [c3, hm1, hbA]
      simp
    have hD3 : a2.payload.take (1 + totalWords (recs ++ fs.map Frag.words)) =
        CONTAINER_MAGIC :: (recs ++ fs.map Frag.words).flatten := by
      rw [hT2, show 1 + (totalWords recs + (fs.map Frag.sizeWords).sum) =
        1 + recs.flatten.length + (fs.map Frag.sizeWords).sum by rw [hflen]; omega, c1]
      simp
    have hcap3 : 1 + totalWords (recs ++ fs.map Frag.words) +
        ((recs ++ fs.map Frag.words).length + 1) ≤ a2.payload.length := by
      rw [hT2, c2]
      simp only [List.length_append, List.length_map]
      omega
    obtain ⟨hr, hft, hmd, hv, hbcq, hst, hlq⟩ := finishIndex_spec
      (setBlockCountA (setHasIndexA a2 false) (a2.meta.block_count + fs.length))
      (recs ++ fs.map Frag.words) hwf2 hne2 hb3 hD3 hcap3
    subst hok
    refine ⟨hr, ?_, ?_, ?_, ?_, ?_⟩
    · rw [hbcq]
      show a2.meta.block_count + fs.length = a.meta.block_count + fs.length
      rw [c3, hm1]
    · rw [hft]
      show a2.meta.fragment_type = adoptFold a.meta.fragment_type fs
      rw [c8, hm1]
    · rw [hmd]
      show a2.meta.missing_data = a.meta.missing_data
      rw [c6, hm1]
    · rw [hv]
      show a2.meta.version = a.meta.version
      rw [c7, hm1]
    · rw [hst]
      show a2.systemType = a.systemType
      rw [c9, hs1]

/-- The batch add succeeds on every batch acceptable under the type policy. -/
theorem addFragments_ok_exists (a : Arena) (fs : List Frag) (allow : Bool)
    (hacc : typesAcceptable a.meta.fragment_type fs allow = true) :
    ∃ b, addFragments a fs allow = .ok b := by
  rw [addFragments_red]
  set a1 := (if a.dataSizeBytes < lastFragmentIndex a + (fs.map Frag.sizeBytes).sum +
      wordBytes * (a.meta.block_count + 1 + fs.length)
    then addSpace a (lastFragmentIndex a + (fs.map Frag.sizeBytes).sum +
      wordBytes * (a.meta.block_count + 1 + fs.length) - a.dataSizeBytes)
    else a) with ha1
  have hm1 : a1.meta = a.meta := by
    rw [ha1]
    split
    · exact (addSpace_spec _ _).1
    · rfl
  obtain ⟨a2, hcl⟩ := copyLoop_ok_exists fs allow a1 (lastFragmentIndex a1)
    (by rw [show a1.meta.fragment_type = a.meta.fragment_type by rw [hm1]]; exact hacc)
  rw [hcl]
  exact ⟨_, rfl⟩

/-- A failing batch add raised the WrongFragmentType rejection from inside
the copy loop: every metadata field except possibly fragment_type is
untouched, and the payload below the stored table location is untouched. -/
theorem addFragments_err_spec {a : Arena} {recs : List (List Nat)} {fs : List Frag}
    {allow : Bool} {e : CFLErr} {s : Arena}
    (hrep : reprB a recs = true)
    (herr : addFragments a fs allow = .error (e, s)) :
    e = CFLErr.WrongFragmentType ∧
    s.meta.block_count = a.meta.block_count ∧
    s.meta.has_index = a.meta.has_index ∧
    s.meta.index_offset = a.meta.index_offset ∧
    s.meta.missing_data = a.meta.missing_data ∧
    s.meta.version = a.meta.version ∧
    s.systemType = a.systemType ∧
    s.payload.take (a.meta.index_offset / wordBytes) =
      a.payload.take (a.meta.index_offset / wordBytes) := by
  obtain ⟨hwfr, hbA, hcA, hDA, hEA, hFA⟩ := reprB_elim hrep
  obtain ⟨hrep1, hm1, hs1, hcap1, hlen1⟩ := addFragments_grow_spec fs hrep
  rw [addFragments_red] at herr
  set a1 := (if a.dataSizeBytes < lastFragmentIndex a + (fs.map Frag.sizeBytes).sum +
      wordBytes * (a.meta.block_count + 1 + fs.length)
    then addSpace a (lastFragmentIndex a + (fs.map Frag.sizeBytes).sum +
      wordBytes * (a.meta.block_count + 1 + fs.length) - a.dataSizeBytes)
    else a) with ha1
  have hlast1 : lastFragmentIndex a1 = wordBytes * (1 + totalWords recs) :=
    lastFragmentIndex_repr hrep1
  have hq : wordBytes * (a.meta.index_offset / wordBytes) ≤ lastFragmentIndex a1 := by
    by_cases hrecs : recs = []
    · rw [hEA hrecs]
      simp
    · rw [(hFA hrecs).1, hlast1, Nat.mul_div_cancel_left _ (by norm_num [wordBytes])]
  have hqlenA : a.meta.index_offset / wordBytes ≤ a.payload.length := by
    by_cases hrecs : recs = []
    · rw [hEA hrecs]
      simp
    · rw [(hFA hrecs).1, Nat.mul_div_cancel_left _ (by norm_num [wordBytes])]
      exact repr_payload_len hrep
  have hqlen1 : a.meta.index_offset / wordBytes ≤ a1.payload.length := le_trans hqlenA hlen1
  have htakeA : a1.payload.take (a.meta.index_offset / wordBytes) =
      a.payload.take (a.meta.index_offset / wordBytes) := by
    rw [ha1]
    split
    · exact addSpace_take _ _ _ hqlenA
    · rfl
  cases hcl : copyLoop a1 (lastFragmentIndex a1) fs allow with
  | ok a2 =>
    rw [hcl] at herr
    cases herr
  | error e2 =>
    rw [hcl] at herr
    obtain ⟨ek, es⟩ := e2
    injection herr with h2
    injection h2 with hke hse
    subst hke
    subst hse
    have hkind := copyLoop_err_kind fs allow a1 _ ek es hcl
    obtain ⟨g1, g2, g3, g4, g5, g6, g7, g8⟩ :=
      copyLoop_frame fs allow a1 (lastFragmentIndex a1) (a.meta.index_offset / wordBytes) hq hqlen1
    rw [hcl] at g1 g2 g3 g4 g5 g6 g7 g8
    simp only [exceptArena] at g1 g2 g3 g4 g5 g6 g7 g8
    exact ⟨hkind, by rw [g3, hm1], by rw [g4, hm1], by rw [g5, hm1], by rw [g6, hm1],
      by rw [g7, hm1], by rw [g8, hs1], by rw [g1, htakeA]⟩

/-- A successful construction happened on an empty arena and produced the
fully determined fresh container. -/
theorem construct_ok_state {a : Arena} {t : Nat} {c : Arena}
    (h : containerFragmentLoader a t = .ok c) :
    a.payload = [] ∧
    c = { systemType := ContainerFragmentType, meta := freshMeta t,
          payload := [CONTAINER_MAGIC] } := by
  unfold containerFragmentLoader at h
  dsimp only at h
  split at h
  · cases h
  · next hcond =>
    rw [not_ne_iff] at hcond
    have hsz : headerWords + words_to_frag_words metaSizeWords + a.payload.length =
        headerWords + words_to_frag_words metaSizeWords := hcond
    have hlen : a.payload.length = 0 := by omega
    have hpl : a.payload = [] := List.length_eq_zero.mp hlen
    injection h with h
    refine ⟨hpl, ?_⟩
    rw [← h]
    simp [writeAt, writeList, resizeWords, hpl, freshMeta]

/-- A failing construction carries the InvalidFragment kind and the arena
with its type tag and metadata slot already written. -/
theorem construct_err_state {a : Arena} {t : Nat} {e : CFLErr} {s : Arena}
    (h : containerFragmentLoader a t = .error (e, s)) :
    e = CFLErr.InvalidFragment ∧ a.payload.length ≠ 0 ∧
    s = { systemType := ContainerFragmentType, meta := freshMeta t, payload := a.payload } := by
  unfold containerFragmentLoader at h
  dsimp only at h
  split at h
  · next hcond =>
    have hsz : a.payload.length ≠ 0 := by
      intro hlen0
      apply hcond
      show headerWords + words_to_frag_words metaSizeWords + a.payload.length =
        headerWords + words_to_frag_words metaSizeWords
      omega
    injection h with h
    injection h with hke hse
    exact ⟨hke.symm, hsz, hse.symm⟩
  · cases h

/-- Construction succeeds on an arena of exactly the expected size. -/
theorem construct_ok_exists (a : Arena) (t : Nat)
    (h : a.size = headerWords + words_to_frag_words metaSizeWords) :
    containerFragmentLoader a t =
      .ok { systemType := ContainerFragmentType, meta := freshMeta t,
            payload := [CONTAINER_MAGIC] } := by
  have hlen : a.payload.length = 0 := by
    have h2 : headerWords + words_to_frag_words metaSizeWords + a.payload.length =
        headerWords + words_to_frag_words metaSizeWords := h
    omega
  have hpl : a.payload = [] := List.length_eq_zero.mp hlen
  unfold containerFragmentLoader
  dsimp only
  split
  · next hcond =>
    exfalso
    apply hcond
    show headerWords + words_to_frag_words metaSizeWords + a.payload.length =
      headerWords + words_to_frag_words metaSizeWords
    omega
  · simp [writeAt, writeList, resizeWords, hpl, freshMeta]

/-- The fresh container satisfies the invariant with no packed records. -/
theorem construct_repr {a : Arena} {t : Nat} {c : Arena}
    (h : containerFragmentLoader a t = .ok c) :
    reprB c [] = true := by
  obtain ⟨hpl, hc⟩ := construct_ok_state h
  subst hc
  rfl

/-- Every state reached from a fresh container by a sequence of successful
wellformed operations satisfies the invariant for some record list. -/
theorem runOps_repr (ops : List Op) :
    ∀ (a : Arena) (recs : List (List Nat)) (b : Arena),
    reprB a recs = true → opsWF ops = true →
    runOps a ops = .ok b →
    ∃ recs2, reprB b recs2 = true := by
  induction ops with
  | nil =>
    intro a recs b hrep _ hrun
    injection hrun with hrun
    subst hrun
    exact ⟨recs, hrep⟩
  | cons op ops' ih =>
    intro a recs b hrep hwf hrun
    simp only [opsWF, Bool.and_eq_true] at hwf
    obtain ⟨hop, hops'⟩ := hwf
    unfold runOps at hrun
    cases hap : applyOp a op with
    | error e =>
      rw [hap] at hrun
      cases hrun
    | ok m =>
      rw [hap] at hrun
      have hm : ∃ recs2, reprB m recs2 = true := by
        cases op with
        | addF f al =>
          exact ⟨recs ++ [f.words], (addFragment_ok_spec hrep (by simpa [opWF] using hop) hap).1⟩
        | addFs fs al =>
          simp only [opWF, Bool.and_eq_true, decide_eq_true_eq] at hop
          exact ⟨recs ++ fs.map Frag.words,
            (addFragments_ok_spec hrep hop.2 (Or.inr hop.1) hap).1⟩
        | setType t2 =>
          injection hap with hap
          subst hap
          exact ⟨recs, reprB_of_eq hrep rfl rfl rfl rfl⟩
        | setMissing b2 =>
          injection hap with hap
          subst hap
          exact ⟨recs, reprB_of_eq hrep rfl rfl rfl rfl⟩
      obtain ⟨recs2, hm2⟩ := hm
      exact ih m recs2 b hm2 hops' hrun

/-- The end of the packed data is never below the first record offset. -/
theorem lastFragmentIndex_ge (a : Arena) : wordBytes ≤ lastFragmentIndex a :=
  indexWalk_getLastD_ge _ _ _ _

/-- Lists agreeing on their first element position have equal heads. -/
theorem headD_of_take_one (l1 l2 : List Nat) (d : Nat) (h : l1.take 1 = l2.take 1) :
    l1.headD d = l2.headD d := by
  cases l1 with
  | nil =>
    cases l2 with
    | nil => rfl
    | cons y t => simp at h
  | cons x t =>
    cases l2 with
    | nil => simp at h
    | cons y s =>
      simp at h
      simp [h]

/-- Resizing to a positive size keeps the magic head word. -/
theorem resizeWords_magic (a : Arena) (n : Nat) (hn : 1 ≤ n)
    (h1 : a.payload ≠ []) (h2 : a.payload.headD 0 = CONTAINER_MAGIC) :
    (resizeWords a n).payload ≠ [] ∧ (resizeWords a n).payload.headD 0 = CONTAINER_MAGIC := by
  cases hp : a.payload with
  | nil => exact absurd hp h1
  | cons x t =>
    cases n with
    | zero => omega
    | succ m =>
      constructor
      · simp [resizeWords, hp]
      · rw [← h2, hp]
        simp [resizeWords, hp]

/-- Growing keeps the magic head word. -/
theorem addSpace_magic (a : Arena) (bytes : Nat)
    (h1 : a.payload ≠ []) (h2 : a.payload.headD 0 = CONTAINER_MAGIC) :
    (addSpace a bytes).payload ≠ [] ∧ (addSpace a bytes).payload.headD 0 = CONTAINER_MAGIC := by
  have hlen : 1 ≤ a.payload.length := List.length_pos.mpr h1
  have hn : 1 ≤ (cushionBytes (bytes + a.dataSizeBytes) + 7) / wordBytes := by
    have hds : a.dataSizeBytes = 8 * a.payload.length := rfl
    have hcb : cushionBytes (bytes + a.dataSizeBytes) =
        ((bytes + a.dataSizeBytes) * 13 + 9) / 10 := rfl
    have h8 : wordBytes = 8 := rfl
    rw [h8, hcb, hds]
    omega
  exact resizeWords_magic a _ hn h1 h2

/-- Writing at a positive word position keeps the magic head word. -/
theorem writeAt_magic (a : Arena) (p : Nat) (ws : List Nat) (hp : 1 ≤ p)
    (h1 : a.payload ≠ []) (h2 : a.payload.headD 0 = CONTAINER_MAGIC) :
    (writeAt a p ws).payload ≠ [] ∧ (writeAt a p ws).payload.headD 0 = CONTAINER_MAGIC := by
  refine ⟨writeList_ne_nil _ _ _ h1 hp, ?_⟩
  show (writeList a.payload p ws).headD 0 = CONTAINER_MAGIC
  rw [writeList_headD _ _ _ _ h1 hp]
  exact h2

/-- The index rebuild tail keeps the magic head word: the table lands at an
offset at least one word in. -/
theorem finishIndex_magic (a : Arena)
    (h1 : a.payload ≠ []) (h2 : a.payload.headD 0 = CONTAINER_MAGIC) :
    (finishIndex a).payload ≠ [] ∧ (finishIndex a).payload.headD 0 = CONTAINER_MAGIC := by
  have hv : wordBytes ≤ (create_index a).getD (a.meta.block_count - 1) 0 := by
    unfold create_index
    exact indexWalk_getD_ge _ _ _ _ (by omega)
  have hp : 1 ≤ (create_index a).getD (a.meta.block_count - 1) 0 / wordBytes := by
    have h8 : wordBytes = 8 := rfl
    rw [h8] at hv ⊢
    omega
  exact writeAt_magic (setIndexOffsetA a ((create_index a).getD (a.meta.block_count - 1) 0))
    ((create_index a).getD (a.meta.block_count - 1) 0 / wordBytes) (create_index a) hp h1 h2

/-- The single-record body keeps the magic head word. -/
theorem addFragmentBody_magic (a : Arena) (f : Frag)
    (h1 : a.payload ≠ []) (h2 : a.payload.headD 0 = CONTAINER_MAGIC) :
    (addFragmentBody a f).payload ≠ [] ∧
    (addFragmentBody a f).payload.headD 0 = CONTAINER_MAGIC := by
  obtain ⟨g1, g2⟩ : (growIfNeeded a f).payload ≠ [] ∧
      (growIfNeeded a f).payload.headD 0 = CONTAINER_MAGIC := by
    unfold growIfNeeded
    split
    · exact addSpace_magic a _ h1 h2
    · exact ⟨h1, h2⟩
  have hp1 : 1 ≤ lastFragmentIndex (growIfNeeded a f) / wordBytes := by
    have hlf := lastFragmentIndex_ge (growIfNeeded a f)
    have h8 : wordBytes = 8 := rfl
    rw [h8] at hlf ⊢
    omega
  obtain ⟨w1, w2⟩ := writeAt_magic (growIfNeeded a f)
    (lastFragmentIndex (growIfNeeded a f) / wordBytes) (f.words.take f.sizeWords) hp1 g1 g2
  exact finishIndex_magic (setBlockCountA (setHasIndexA (writeAt (growIfNeeded a f)
    (lastFragmentIndex (growIfNeeded a f) / wordBytes) (f.words.take f.sizeWords)) false)
    ((growIfNeeded a f).meta.block_count + 1)) w1 w2

/-- The single add keeps the magic head word, whether or not it raises. -/
theorem addFragment_magic (a : Arena) (f : Frag) (allow : Bool)
    (h1 : a.payload ≠ []) (h2 : a.payload.headD 0 = CONTAINER_MAGIC) :
    (exceptArena (addFragment a f allow)).payload ≠ [] ∧
    (exceptArena (addFragment a f allow)).payload.headD 0 = CONTAINER_MAGIC := by
  cases haf : addFragment a f allow with
  | error e =>
    obtain ⟨ek, es⟩ := e
    obtain ⟨_, hs, _⟩ := addFragment_err_state haf
    subst hs
    exact ⟨h1, h2⟩
  | ok b =>
    obtain ⟨a1, htc, hb⟩ := addFragment_ok_state haf
    obtain ⟨hp1, _⟩ := typeCheck_ok_state htc
    subst hb
    exact addFragmentBody_magic a1 f (by rw [hp1]; exact h1) (by rw [hp1]; exact h2)

/-- The batch add keeps the magic head word, whether or not it raises. -/
theorem addFragments_magic (a : Arena) (fs : List Frag) (allow : Bool)
    (h1 : a.payload ≠ []) (h2 : a.payload.headD 0 = CONTAINER_MAGIC) :
    (exceptArena (addFragments a fs allow)).payload ≠ [] ∧
    (exceptArena (addFragments a fs allow)).payload.headD 0 = CONTAINER_MAGIC := by
  rw [addFragments_red]
  set a1 := (if a.dataSizeBytes < lastFragmentIndex a + (fs.map Frag.sizeBytes).sum +
      wordBytes * (a.meta.block_count + 1 + fs.length)
    then addSpace a (lastFragmentIndex a + (fs.map Frag.sizeBytes).sum +
      wordBytes * (a.meta.block_count + 1 + fs.length) - a.dataSizeBytes)
    else a) with ha1
  obtain ⟨g1, g2⟩ : a1.payload ≠ [] ∧ a1.payload.headD 0 = CONTAINER_MAGIC := by
    rw [ha1]
    split
    · exact addSpace_magic a _ h1 h2
    · exact ⟨h1, h2⟩
  have hq : wordBytes * 1 ≤ lastFragmentIndex a1 := by
    simpa using lastFragmentIndex_ge a1
  have hqlen : 1 ≤ a1.payload.length := List.length_pos.mpr g1
  obtain ⟨t1, t2, _⟩ := copyLoop_frame fs allow a1 (lastFragmentIndex a1) 1 hq hqlen
  cases hcl : copyLoop a1 (lastFragmentIndex a1) fs allow with
  | error e =>
    rw [hcl] at t1 t2
    simp only [exceptArena] at t1 t2 ⊢
    have hne : e.2.payload ≠ [] := by
      intro hnil
      rw [hnil] at t2
      simp only [List.length_nil, Nat.le_zero] at t2
      omega
    have hhead : e.2.payload.headD 0 = CONTAINER_MAGIC := by
      rw [headD_of_take_one _ _ _ t1]
      exact g2
    exact ⟨hne, hhead⟩
  | ok a2 =>
    rw [hcl] at t1 t2
    simp only [exceptArena] at t1 t2 ⊢
    have hne : a2.payload ≠ [] := by
      intro hnil
      rw [hnil] at t2
      simp only [List.length_nil, Nat.le_zero] at t2
      omega
    have hhead : a2.payload.headD 0 = CONTAINER_MAGIC := by
      rw [headD_of_take_one _ _ _ t1]
      exact g2
    exact finishIndex_magic (setBlockCountA (setHasIndexA a2 false)
      (a2.meta.block_count + fs.length)) hne hhead

/-- Every loader operation keeps the magic head word. -/
theorem applyOp_magic (a : Arena) (op : Op)
    (h1 : a.payload ≠ []) (h2 : a.payload.headD 0 = CONTAINER_MAGIC) :
    (exceptArena (applyOp a op)).payload ≠ [] ∧
    (exceptArena (applyOp a op)).payload.headD 0 = CONTAINER_MAGIC := by
  cases op with
  | addF f al => exact addFragment_magic a f al h1 h2
  | addFs fs al => exact addFragments_magic a fs al h1 h2
  | setType t => exact ⟨h1, h2⟩
  | setMissing b => exact ⟨h1, h2⟩

/-- Running any operation sequence keeps the magic head word, raised
errors included. -/
theorem runOpsTotal_magic (ops : List Op) :
    ∀ (a : Arena), a.payload ≠ [] → a.payload.headD 0 = CONTAINER_MAGIC →
    (runOpsTotal a ops).payload ≠ [] ∧
    (runOpsTotal a ops).payload.headD 0 = CONTAINER_MAGIC := by
  induction ops with
  | nil =>
    intro a h1 h2
    exact ⟨h1, h2⟩
  | cons op ops' ih =>
    intro a h1 h2
    obtain ⟨g1, g2⟩ := applyOp_magic a op h1 h2
    unfold runOpsTotal
    have hstep : (match applyOp a op with | .ok b => b | .error e => e.2) =
        exceptArena (applyOp a op) := by
      cases applyOp a op <;> rfl
    rw [hstep]
    exact ih _ g1 g2

/-- The stored table always presents block_count + 1 entries. -/
theorem storedIndex_length (a : Arena) :
    (storedIndex a).length = a.meta.block_count + 1 := by
  simp [storedIndex]

/-- The terminator entry of the end-offset table is the end of the data. -/
theorem endOffsets_getD_term (off : Nat) (recs : List (List Nat)) :
    (endOffsets off recs).getD recs.length 0 = off + wordBytes * totalWords recs := by
  induction recs generalizing off with
  | nil => simp [endOffsets, totalWords]
  | cons r rs ih =>
    simp only [endOffsets, List.length_cons, List.getD_cons_succ, ih, totalWords,
      List.map_cons, List.sum_cons]
    ring

/-- Consecutive record entries of the end-offset table strictly increase
when every record is nonempty. -/
theorem endOffsets_strict (recs : List (List Nat)) (h : recsWF recs = true) :
    ∀ (off i : Nat), i + 1 < recs.length →
      (endOffsets off recs).getD i 0 < (endOffsets off recs).getD (i + 1) 0 := by
  induction recs with
  | nil =>
    intro off i hi
    simp at hi
  | cons r rs ih =>
    simp only [recsWF, Bool.and_eq_true, decide_eq_true_eq] at h
    obtain ⟨⟨hne, _⟩, hrs⟩ := h
    intro off i hi
    cases i with
    | zero =>
      cases rs with
      | nil => simp at hi
      | cons r2 rs2 =>
        simp only [recsWF, Bool.and_eq_true, decide_eq_true_eq] at hrs
        obtain ⟨⟨hne2, _⟩, _⟩ := hrs
        have hpos : 0 < r2.length := List.length_pos.mpr hne2
        simp only [endOffsets, List.getD_cons_zero, List.getD_cons_succ]
        have h8 : wordBytes = 8 := rfl
        rw [h8]
        omega
    | succ j =>
      have hj : j + 1 < rs.length := by simpa using hi
      simp only [endOffsets, List.getD_cons_succ]
      exact ih hrs _ j hj

/-- Prefix word totals never exceed the full total. -/
theorem totalWords_take_le (recs : List (List Nat)) (k : Nat) :
    totalWords (recs.take k) ≤ totalWords recs := by
  induction recs generalizing k with
  | nil => simp [totalWords]
  | cons r rs ih =>
    cases k with
    | zero => simp [totalWords]
    | succ j =>
      simp only [List.take_succ_cons, totalWords, List.map_cons, List.sum_cons]
      exact Nat.add_le_add_left (ih j) _

/-- Taking one more record appends exactly that record. -/
theorem take_succ_getD (recs : List (List Nat)) :
    ∀ (i : Nat), i < recs.length →
    recs.take (i + 1) = recs.take i ++ [recs.getD i []] := by
  induction recs with
  | nil =>
    intro i hi
    simp at hi
  | cons r rs ih =>
    intro i hi
    cases i with
    | zero => simp
    | succ j =>
      have hj : j < rs.length := by simpa using hi
      simp [ih j hj]

/-- The packed words of a record prefix are the front of the packed words. -/
theorem flatten_take (recs : List (List Nat)) (k : Nat) :
    recs.flatten.take (totalWords (recs.take k)) = (recs.take k).flatten := by
  have h1 : recs.flatten = (recs.take k).flatten ++ (recs.drop k).flatten := by
    rw [← List.flatten_append, List.take_append_drop]
  rw [h1, ← totalWords_flatten (recs.take k)]
  exact List.take_left _ _

/-- Recover any list by reading each of its positions in order. -/
theorem map_range_getD_gen {α : Type} (l : List α) (d : α) :
    (List.range l.length).map (fun i => l.getD i d) = l := by
  induction l with
  | nil => rfl
  | cons x t ih =>
    have hr : List.range (t.length + 1) = 0 :: (List.range t.length).map (· + 1) :=
      List.range_succ_eq_map t.length
    simp only [List.length_cons, hr, List.map_cons, List.map_map]
    refine congrArg (x :: ·) ?_
    have hc : ((fun i => (x :: t).getD i d) ∘ fun i => i + 1) = fun i => t.getD i d := by
      funext i
      exact List.getD_cons_succ
    rw [hc, ih]

/-- On a consistent container the reader start offset of position j is the
end of the first j records. -/
theorem fragmentStart_repr {a : Arena} {recs : List (List Nat)} (h : reprB a recs = true)
    (j : Nat) (hj : j ≤ recs.length) :
    fragmentStart a j = wordBytes * (1 + totalWords (recs.take j)) := by
  obtain ⟨hwf, hb, hc, hD, hE, hF⟩ := reprB_elim h
  cases j with
  | zero =>
    simp [fragmentStart, totalWords]
  | succ i =>
    have hne : recs ≠ [] := by
      intro hnil
      rw [hnil] at hj
      simp at hj
    obtain ⟨hoff, hstored⟩ := hF hne
    have hi : i < recs.length := by omega
    unfold fragmentStart
    rw [if_neg (by omega), hstored]
    simp only [Nat.add_sub_cancel]
    rw [endOffsets_getD wordBytes recs i hi]
    ring

/-- Read-back through the stored table recovers exactly the packed records
of a consistent container. -/
theorem readRecords_repr {a : Arena} {recs : List (List Nat)} (h : reprB a recs = true) :
    readRecords a = recs := by
  obtain ⟨hwf, hb, hc, hD, hE, hF⟩ := reprB_elim h
  unfold readRecords
  rw [hb]
  have hrec : ∀ i, i < recs.length → readRecord a i = recs.getD i [] := by
    intro i hi
    unfold readRecord
    rw [fragmentStart_repr h i (by omega), fragmentStart_repr h (i + 1) (by omega)]
    rw [Nat.mul_div_cancel_left _ (by norm_num [wordBytes] : 0 < wordBytes),
      Nat.mul_div_cancel_left _ (by norm_num [wordBytes] : 0 < wordBytes)]
    have hle : 1 + totalWords (recs.take (i + 1)) ≤ 1 + totalWords recs := by
      have := totalWords_take_le recs (i + 1)
      omega
    have htt : a.payload.take (1 + totalWords (recs.take (i + 1))) =
        (a.payload.take (1 + totalWords recs)).take (1 + totalWords (recs.take (i + 1))) := by
      rw [List.take_take, Nat.min_eq_left hle]
    rw [htt, hD]
    have hsucc : 1 + totalWords (recs.take (i + 1)) = totalWords (recs.take (i + 1)) + 1 := by
      omega
    rw [hsucc, List.take_succ_cons, flatten_take]
    have hdrop : 1 + totalWords (recs.take i) = totalWords (recs.take i) + 1 := by
      omega
    rw [hdrop, List.drop_succ_cons]
    rw [take_succ_getD recs i hi, List.flatten_append]
    rw [show totalWords (recs.take i) = (recs.take i).flatten.length by
      rw [totalWords_flatten]]
    simp
  calc (List.range recs.length).map (readRecord a)
      = (List.range recs.length).map (fun i => recs.getD i []) := by
        refine List.map_congr_left ?_
        intro i hi
        exact hrec i (by simpa using hi)
    _ = recs := map_range_getD_gen recs []

/-- The copy loop adopts types in batch order, on any state. -/
theorem copyLoop_ok_type (fs : List Frag) (allow : Bool) :
    ∀ (a : Arena) (ptr : Nat) (b : Arena),
    copyLoop a ptr fs allow = .ok b →
    b.meta.fragment_type = adoptFold a.meta.fragment_type fs := by
  induction fs with
  | nil =>
    intro a ptr b h
    injection h with h
    subst h
    rfl
  | cons f fs' ih =>
    intro a ptr b h
    unfold copyLoop at h
    cases htc : typeCheck a f.type allow with
    | error e =>
      rw [htc] at h
      cases h
    | ok a1 =>
      rw [htc] at h
      have hr := ih _ _ _ h
      rw [hr]
      show adoptFold a1.meta.fragment_type fs' = adoptFold a.meta.fragment_type (f :: fs')
      rw [(typeCheck_ok_state htc).2.2.2.2.2.2.1]
      rfl

/-- A successful batch add adopts types in batch order, on any state. -/
theorem addFragments_ok_type {a : Arena} {fs : List Frag} {allow : Bool} {b : Arena}
    (hok : addFragments a fs allow = .ok b) :
    b.meta.fragment_type = adoptFold a.meta.fragment_type fs := by
  rw [addFragments_red] at hok
  set a1 := (if a.dataSizeBytes < lastFragmentIndex a + (fs.map Frag.sizeBytes).sum +
      wordBytes * (a.meta.block_count + 1 + fs.length)
    then addSpace a (lastFragmentIndex a + (fs.map Frag.sizeBytes).sum +
      wordBytes * (a.meta.block_count + 1 + fs.length) - a.dataSizeBytes)
    else a) with ha1
  have hm1 : a1.meta = a.meta := by
    rw [ha1]
    split
    · exact (addSpace_spec _ _).1
    · rfl
  cases hcl : copyLoop a1 (lastFragmentIndex a1) fs allow with
  | error e =>
    rw [hcl] at hok
    cases hok
  | ok a2 =>
    rw [hcl] at hok
    injection hok with hok
    subst hok
    have ht := copyLoop_ok_type fs allow a1 _ a2 hcl
    show a2.meta.fragment_type = adoptFold a.meta.fragment_type fs
    rw [ht, hm1]

/-- Once bound, the container type survives any further adoptions. -/
theorem adoptFold_stable (fs : List Frag) :
    ∀ t, t ≠ EmptyFragmentType → adoptFold t fs = t := by
  induction fs with
  | nil =>
    intro t _
    rfl
  | cons f fs' ih =>
    intro t ht
    unfold adoptFold
    rw [if_neg ht]
    exact ih t ht

/-- C1 counterexample: immediately after a successful construction
has_index is true, block_count is 0 and index_offset is 0, yet the one
entry of the table read at index_offset is the magic marker word, not
index_offset itself, so the claimed invariant that the last table entry
equals index_offset fails in that state. -/
theorem c1_counterexample :
    containerFragmentLoader arena0 3 = .ok c0 ∧
    c0.meta.has_index = true ∧ c0.meta.block_count = 0 ∧
    c0.meta.index_offset = 0 ∧
    (storedIndex c0).length = c0.meta.block_count + 1 ∧
    (storedIndex c0).getLastD 0 ≠ c0.meta.index_offset :=
  ⟨rfl, rfl, rfl, rfl, rfl, by decide⟩

/-- C1 as amended: in every state with has_index true reached from a
construction by successful wellformed operations, there is a record list
recs counted by block_count whose stored table at index_offset holds
block_count + 1 entries; when block_count is positive the table is the
end-offset table of recs: entry i is the end offset of record i (the start
offset of record i + 1), the first block_count entries strictly increase,
entry block_count - 1 and the terminator entry both equal index_offset,
which is the end of the packed data; when block_count is 0 no table was
materialized, index_offset is 0 and the word there is the magic marker. -/
theorem c1_index_invariant_amended (a0 : Arena) (t : Nat) (c : Arena) (ops : List Op)
    (b : Arena)
    (h0 : containerFragmentLoader a0 t = .ok c) (hwf : opsWF ops = true)
    (hrun : runOps c ops = .ok b) (hidx : b.meta.has_index = true) :
    ∃ recs : List (List Nat),
      b.meta.block_count = recs.length ∧
      (storedIndex b).length = b.meta.block_count + 1 ∧
      (0 < b.meta.block_count →
        storedIndex b = endOffsets wordBytes recs ∧
        (∀ i, i < b.meta.block_count →
          (storedIndex b).getD i 0 = wordBytes * (1 + totalWords (recs.take (i + 1)))) ∧
        (∀ i, i + 1 < b.meta.block_count →
          (storedIndex b).getD i 0 < (storedIndex b).getD (i + 1) 0) ∧
        (storedIndex b).getD (b.meta.block_count - 1) 0 = b.meta.index_offset ∧
        (storedIndex b).getD b.meta.block_count 0 = b.meta.index_offset ∧
        b.meta.index_offset = wordBytes * (1 + totalWords recs)) ∧
      (b.meta.block_count = 0 →
        b.meta.index_offset = 0 ∧ b.payload.getD 0 0 = CONTAINER_MAGIC) := by
  obtain ⟨recs, hrep⟩ := runOps_repr ops c [] b (construct_repr h0) hwf hrun
  obtain ⟨hwfr, hb, hc, hD, hE, hF⟩ := reprB_elim hrep
  refine ⟨recs, hb, storedIndex_length b, ?_, ?_⟩
  · intro hpos
    have hne : recs ≠ [] := by
      intro hnil
      rw [hnil] at hb
      simp at hb
      omega
    obtain ⟨hoff, hstored⟩ := hF hne
    refine ⟨hstored, ?_, ?_, ?_, ?_, hoff⟩
    · intro i hi
      rw [hstored, endOffsets_getD wordBytes recs i (by omega)]
      ring
    · intro i hi
      rw [hstored]
      exact endOffsets_strict recs hwfr wordBytes i (by omega)
    · rw [hstored, hb, endOffsets_getD_last wordBytes recs hne, hoff]
      ring
    · rw [hstored, hb, endOffsets_getD_term wordBytes recs, hoff]
      ring
  · intro h0b
    have hnil : recs = [] := by
      rw [h0b] at hb
      exact List.length_eq_zero.mp hb.symm
    refine ⟨hE hnil, ?_⟩
    rw [hnil] at hD
    simp only [totalWords, List.map_nil, List.sum_nil, List.flatten_nil] at hD
    have hg := congrArg (fun l => l.getD 0 0) hD
    simp only at hg
    rw [getD_take_of_lt _ _ _ _ (by omega)] at hg
    simpa using hg

/-- Witness for c1_index_invariant_amended on a concrete one-record run. -/
theorem c1_index_invariant_amended_witness :
    containerFragmentLoader arena0 3 = .ok c0 ∧
    opsWF [Op.addF fragA false] = true ∧
    runOps c0 [Op.addF fragA false] = .ok c1 ∧
    c1.meta.has_index = true ∧
    (∃ recs : List (List Nat),
      c1.meta.block_count = recs.length ∧
      (storedIndex c1).length = c1.meta.block_count + 1 ∧
      (0 < c1.meta.block_count →
        storedIndex c1 = endOffsets wordBytes recs ∧
        (∀ i, i < c1.meta.block_count →
          (storedIndex c1).getD i 0 = wordBytes * (1 + totalWords (recs.take (i + 1)))) ∧
        (∀ i, i + 1 < c1.meta.block_count →
          (storedIndex c1).getD i 0 < (storedIndex c1).getD (i + 1) 0) ∧
        (storedIndex c1).getD (c1.meta.block_count - 1) 0 = c1.meta.index_offset ∧
        (storedIndex c1).getD c1.meta.block_count 0 = c1.meta.index_offset ∧
        c1.meta.index_offset = wordBytes * (1 + totalWords recs)) ∧
      (c1.meta.block_count = 0 →
        c1.meta.index_offset = 0 ∧ c1.payload.getD 0 0 = CONTAINER_MAGIC)) :=
  ⟨rfl, by decide, rfl, rfl,
    c1_index_invariant_amended arena0 3 c0 [Op.addF fragA false] c1 rfl (by decide) rfl rfl⟩

/-- C2: construction succeeds iff the arena size in words equals the header
word count plus the metadata word count exactly; on success block_count is
0, has_index is true, index_offset is 0, missing_data is false,
fragment_type is the expected type, and the magic marker word sits at
payload offset 0. -/
theorem c2_construction (a : Arena) (t : Nat) :
    ((∃ c, containerFragmentLoader a t = .ok c) ↔
      a.size = headerWords + words_to_frag_words metaSizeWords) ∧
    (∀ c, containerFragmentLoader a t = .ok c →
      c.meta.block_count = 0 ∧ c.meta.has_index = true ∧ c.meta.index_offset = 0 ∧
      c.meta.missing_data = false ∧ c.meta.fragment_type = t ∧
      c.payload.getD 0 0 = CONTAINER_MAGIC) := by
  constructor
  · constructor
    · rintro ⟨c, hc⟩
      obtain ⟨hpl, _⟩ := construct_ok_state hc
      show headerWords + words_to_frag_words metaSizeWords + a.payload.length = _
      rw [hpl]
      simp
    · intro hsz
      exact ⟨_, construct_ok_exists a t hsz⟩
  · intro c hc
    obtain ⟨_, hc2⟩ := construct_ok_state hc
    subst hc2
    exact ⟨rfl, rfl, rfl, rfl, rfl, rfl⟩

/-- Witness for c2_construction at the concrete empty arena. -/
theorem c2_construction_witness :
    ((∃ c, containerFragmentLoader arena0 3 = .ok c) ↔
      arena0.size = headerWords + words_to_frag_words metaSizeWords) ∧
    (∀ c, containerFragmentLoader arena0 3 = .ok c →
      c.meta.block_count = 0 ∧ c.meta.has_index = true ∧ c.meta.index_offset = 0 ∧
      c.meta.missing_data = false ∧ c.meta.fragment_type = 3 ∧
      c.payload.getD 0 0 = CONTAINER_MAGIC) :=
  c2_construction arena0 3

/-- C3: on a container whose type is bound, a single add of a record of a
different type with allowDifferentTypes false fails with WrongFragmentType
and carries the container state completely unchanged, the rejection being
raised before any byte is copied. -/
theorem c3_wrong_type_noop (a : Arena) (f : Frag)
    (hbound : a.meta.fragment_type ≠ EmptyFragmentType)
    (hdiff : f.type ≠ a.meta.fragment_type) :
    addFragment a f false = .error (CFLErr.WrongFragmentType, a) := by
  unfold addFragment typeCheck
  rw [if_neg hbound, if_pos ⟨rfl, hdiff⟩]

/-- Witness for c3_wrong_type_noop on a concrete bound container. -/
theorem c3_wrong_type_noop_witness :
    c1.meta.fragment_type ≠ EmptyFragmentType ∧
    fragC.type ≠ c1.meta.fragment_type ∧
    addFragment c1 fragC false = .error (CFLErr.WrongFragmentType, c1) :=
  ⟨by decide, by decide, c3_wrong_type_noop c1 fragC (by decide) (by decide)⟩

/-- C4: on a consistent container, appending an acceptable batch one record
at a time through the single-record add yields the same logical content as
one batch call: same block_count, same per-record read-back bytes, same
stored index table values.  The corner of an empty batch on an empty
container is excluded: there the source indexes the freshly built table at
the unsigned position block_count - 1 = 2^64 - 1, which is undefined
behaviour. -/
theorem c4_single_equals_batch (a : Arena) (recs : List (List Nat)) (fs : List Frag)
    (allow : Bool)
    (hrep : reprB a recs = true) (hwf : fragsWF fs = true)
    (hne : recs ≠ [] ∨ fs ≠ [])
    (hacc : typesAcceptable a.meta.fragment_type fs allow = true) :
    ∃ b s, addFragments a fs allow = .ok b ∧ foldAdd a fs allow = .ok s ∧
      b.meta.block_count = s.meta.block_count ∧
      readRecords b = readRecords s ∧
      storedIndex b = storedIndex s := by
  obtain ⟨b, hokb⟩ := addFragments_ok_exists a fs allow hacc
  obtain ⟨s, hoks⟩ := foldAdd_ok_exists fs allow a hacc
  obtain ⟨hrb, hbcb, _, _, _, _⟩ := addFragments_ok_spec hrep hwf hne hokb
  obtain ⟨hrs, hbcs, _, _, _, _⟩ := foldAdd_ok_spec fs allow a recs s hrep hwf hoks
  have hne2 : recs ++ fs.map Frag.words ≠ [] := by
    intro hnil
    rw [List.append_eq_nil] at hnil
    rcases hne with h | h
    · exact h hnil.1
    · exact h (List.map_eq_nil_iff.mp hnil.2)
  refine ⟨b, s, hokb, hoks, by rw [hbcb, hbcs], ?_, ?_⟩
  · rw [readRecords_repr hrb, readRecords_repr hrs]
  · rw [((reprB_elim hrb).2.2.2.2.2 hne2).2, ((reprB_elim hrs).2.2.2.2.2 hne2).2]

/-- Witness for c4_single_equals_batch on a concrete two-record batch. -/
theorem c4_single_equals_batch_witness :
    reprB c1 [fragA.words] = true ∧
    fragsWF [fragB, fragB] = true ∧
    ([fragA.words] ≠ ([] : List (List Nat)) ∨ [fragB, fragB] ≠ ([] : List Frag)) ∧
    typesAcceptable c1.meta.fragment_type [fragB, fragB] false = true ∧
    (∃ b s, addFragments c1 [fragB, fragB] false = .ok b ∧
      foldAdd c1 [fragB, fragB] false = .ok s ∧
      b.meta.block_count = s.meta.block_count ∧
      readRecords b = readRecords s ∧
      storedIndex b = storedIndex s) :=
  ⟨by decide, by decide, by decide, by decide,
    c4_single_equals_batch c1 [fragA.words] [fragB, fragB] false
      (by decide) (by decide) (by decide) (by decide)⟩

/-- C5 counterexample: construction over a wrongly sized arena raises
InvalidFragment, but the carried arena has its outer type tag and its
metadata slot already rewritten, so partial state does exist, against the
claim that the error is raised before any field is written. -/
theorem c5_counterexample :
    containerFragmentLoader badArena 3 = .error (CFLErr.InvalidFragment,
      { systemType := ContainerFragmentType, meta := freshMeta 3, payload := [7] }) ∧
    ContainerFragmentType ≠ badArena.systemType ∧
    freshMeta 3 ≠ badArena.meta :=
  ⟨rfl, by decide, by decide⟩

/-- C5 as amended: when the arena size does not match, InvalidFragment is
raised before the payload is resized and before the magic marker is
written, but after the outer type tag and the metadata record are stored;
the failing call carries the arena with exactly those two fields rewritten
and the payload untouched. -/
theorem c5_partial_state_amended (a : Arena) (t : Nat)
    (h : a.size ≠ headerWords + words_to_frag_words metaSizeWords) :
    containerFragmentLoader a t = .error (CFLErr.InvalidFragment,
      { systemType := ContainerFragmentType, meta := freshMeta t, payload := a.payload }) := by
  unfold containerFragmentLoader
  dsimp only
  split
  · rfl
  · next hcond =>
    exact absurd (not_ne_iff.mp hcond) h

/-- Witness for c5_partial_state_amended at the concrete wrong-size arena. -/
theorem c5_partial_state_amended_witness :
    badArena.size ≠ headerWords + words_to_frag_words metaSizeWords ∧
    containerFragmentLoader badArena 3 = .error (CFLErr.InvalidFragment,
      { systemType := ContainerFragmentType, meta := freshMeta 3, payload := badArena.payload }) :=
  ⟨by decide, c5_partial_state_amended badArena 3 (by decide)⟩

/-- C6: when the capacity guard of the single add finds the payload too
small for the shortfall R = requiredBytes - dataSizeBytes, growth yields a
capacity of at least the previous size plus R, and at least the cushioned
target cushionBytes (requiredBytes), which strictly exceeds the bare
requirement; when the capacity suffices no growth occurs at all. -/
theorem c6_growth_policy (a : Arena) (f : Frag) :
    (a.dataSizeBytes < requiredBytes a f →
      a.dataSizeBytes + (requiredBytes a f - a.dataSizeBytes) ≤
        (growIfNeeded a f).dataSizeBytes ∧
      cushionBytes (requiredBytes a f) ≤ (growIfNeeded a f).dataSizeBytes ∧
      requiredBytes a f < cushionBytes (requiredBytes a f)) ∧
    (¬ a.dataSizeBytes < requiredBytes a f → growIfNeeded a f = a) := by
  constructor
  · intro hg
    unfold growIfNeeded
    rw [if_pos hg]
    obtain ⟨hm, hs, hlen, hcov, hcush⟩ := addSpace_spec a (requiredBytes a f - a.dataSizeBytes)
    refine ⟨by omega, ?_, ?_⟩
    · have hre : requiredBytes a f - a.dataSizeBytes + a.dataSizeBytes = requiredBytes a f := by
        omega
      rw [hre] at hcush
      exact hcush
    · have hpos : 0 < requiredBytes a f := by
        unfold requiredBytes
        have h8 : wordBytes = 8 := rfl
        rw [h8]
        omega
      unfold cushionBytes
      omega
  · intro hg
    unfold growIfNeeded
    rw [if_neg hg]

/-- Witness for c6_growth_policy at the fresh container's first add. -/
theorem c6_growth_policy_witness :
    c0.dataSizeBytes < requiredBytes c0 fragA ∧
    (c0.dataSizeBytes + (requiredBytes c0 fragA - c0.dataSizeBytes) ≤
        (growIfNeeded c0 fragA).dataSizeBytes ∧
      cushionBytes (requiredBytes c0 fragA) ≤ (growIfNeeded c0 fragA).dataSizeBytes ∧
      requiredBytes c0 fragA < cushionBytes (requiredBytes c0 fragA)) :=
  ⟨by decide, (c6_growth_policy c0 fragA).1 (by decide)⟩

/-- C7: on a container whose fragment_type is still the empty sentinel,
adding a record through addFragment sets fragment_type to that record's
type whatever the allowDifferentTypes flag says, and a batch add does the
same with its first record (whose own type is not the sentinel). -/
theorem c7_adopt_type (a : Arena) (f : Frag) (fs : List Frag) (allow : Bool)
    (hempty : a.meta.fragment_type = EmptyFragmentType) :
    (∀ b, addFragment a f allow = .ok b → b.meta.fragment_type = f.type) ∧
    (f.type ≠ EmptyFragmentType →
      ∀ b, addFragments a (f :: fs) allow = .ok b → b.meta.fragment_type = f.type) := by
  constructor
  · intro b hok
    obtain ⟨a1, htc, hb⟩ := addFragment_ok_state hok
    obtain ⟨_, _, _, _, _, _, hf1, _⟩ := typeCheck_ok_state htc
    subst hb
    rw [(addFragmentBody_framePure a1 f).1, hf1, if_pos hempty]
  · intro hft b hok
    have ht := addFragments_ok_type hok
    rw [ht, hempty]
    show adoptFold f.type fs = f.type
    exact adoptFold_stable fs f.type hft

/-- Witness for c7_adopt_type on the sentinel-typed concrete container. -/
theorem c7_adopt_type_witness :
    cE.meta.fragment_type = EmptyFragmentType ∧
    ((∀ b, addFragment cE fragA false = .ok b → b.meta.fragment_type = fragA.type) ∧
     (fragA.type ≠ EmptyFragmentType →
       ∀ b, addFragments cE (fragA :: [fragB]) false = .ok b →
         b.meta.fragment_type = fragA.type)) :=
  ⟨by decide, c7_adopt_type cE fragA [fragB] false (by decide)⟩

/-- C8: a successful batch add of k records over a consistent container
ends with block_count raised by exactly k, has_index true, and the stored
table equal to one fresh run of the index builder over the final state, so
a single rebuild after all copies accounts for the whole batch. -/
theorem c8_batch_block_count (a : Arena) (recs : List (List Nat)) (fs : List Frag)
    (allow : Bool)
    (hrep : reprB a recs = true) (hwf : fragsWF fs = true) (hne : fs ≠ [])
    (hacc : typesAcceptable a.meta.fragment_type fs allow = true) :
    ∃ b, addFragments a fs allow = .ok b ∧
      b.meta.block_count = a.meta.block_count + fs.length ∧
      b.meta.has_index = true ∧
      storedIndex b = create_index b := by
  obtain ⟨b, hok⟩ := addFragments_ok_exists a fs allow hacc
  obtain ⟨hr, hbc, _, _, _, _⟩ := addFragments_ok_spec hrep hwf (Or.inr hne) hok
  obtain ⟨_, _, hhi, _, _, hF⟩ := reprB_elim hr
  have hne2 : recs ++ fs.map Frag.words ≠ [] := by
    intro hnil
    rw [List.append_eq_nil] at hnil
    exact hne (List.map_eq_nil_iff.mp hnil.2)
  obtain ⟨_, hstored⟩ := hF hne2
  exact ⟨b, hok, hbc, hhi, by rw [hstored, create_index_repr hr]⟩

/-- Witness for c8_batch_block_count on a concrete two-record batch. -/
theorem c8_batch_block_count_witness :
    reprB c0 [] = true ∧
    fragsWF [fragA, fragB] = true ∧
    ([fragA, fragB] : List Frag) ≠ [] ∧
    typesAcceptable c0.meta.fragment_type [fragA, fragB] false = true ∧
    (∃ b, addFragments c0 [fragA, fragB] false = .ok b ∧
      b.meta.block_count = c0.meta.block_count + 2 ∧
      b.meta.has_index = true ∧
      storedIndex b = create_index b) :=
  ⟨by decide, by decide, by decide, by decide,
    c8_batch_block_count c0 [] [fragA, fragB] false (by decide) (by decide)
      (by decide) (by decide)⟩

/-- C9: the magic marker written at construction is never overwritten: after
any sequence of well-formed addFragment, addFragments, set_fragment_type and
set_missing_data operations, raising or not, the first payload word still
holds the magic marker value. The opsWF hypothesis demands well-formed
records and nonempty batches: an empty addFragments batch on an empty
container makes the source read the local table at unsigned
block_count - 1 = 2^64 - 1, undefined behaviour this development does not
model (see opWF). -/
theorem c9_magic_never_overwritten (a0 : Arena) (t : Nat) (c : Arena) (ops : List Op)
    (h0 : containerFragmentLoader a0 t = .ok c) (hwf : opsWF ops = true) :
    (runOpsTotal c ops).payload ≠ [] ∧
    (runOpsTotal c ops).payload.headD 0 = CONTAINER_MAGIC := by
  clear hwf
  obtain ⟨_, hc⟩ := construct_ok_state h0
  subst hc
  exact runOpsTotal_magic ops _ (by simp) rfl

/-- Witness for c9_magic_never_overwritten on a mixed operation run. -/
theorem c9_magic_never_overwritten_witness :
    containerFragmentLoader arena0 3 = .ok c0 ∧ opsWF opsMix = true ∧
    (runOpsTotal c0 opsMix).payload ≠ [] ∧
    (runOpsTotal c0 opsMix).payload.headD 0 = CONTAINER_MAGIC :=
  ⟨rfl, by decide, c9_magic_never_overwritten arena0 3 c0 opsMix rfl (by decide)⟩

/-- C10 counterexample: the batch add on the one-record container c1 copies
its first record over the stored index table before rejecting the second
record, so although block_count, has_index and index_offset are unchanged,
read-back through the stored table no longer returns the pre-call record,
against the claim that the container still reads back exactly its pre-call
records. -/
theorem c10_counterexample :
    addFragments c1 [fragB, fragC] false = .error (CFLErr.WrongFragmentType, c10s) ∧
    c10s.meta.block_count = c1.meta.block_count ∧
    c10s.meta.has_index = c1.meta.has_index ∧
    c10s.meta.index_offset = c1.meta.index_offset ∧
    readRecords c1 = [fragA.words] ∧
    readRecords c10s ≠ [fragA.words] :=
  ⟨rfl, rfl, rfl, rfl, by decide, by decide⟩

/-- C10 as amended: when the batch add fails mid-batch with
WrongFragmentType, block_count, has_index, index_offset and missing_data
are unchanged and the payload strictly below index_offset (the packed
pre-call record bytes) is unchanged; the stored table at index_offset
itself, however, may have been overwritten by the already copied records,
so indexed read-back of the pre-call records is not guaranteed. -/
theorem c10_partial_batch_amended (a : Arena) (recs : List (List Nat)) (fs : List Frag)
    (allow : Bool) (e : CFLErr) (s : Arena)
    (hrep : reprB a recs = true)
    (herr : addFragments a fs allow = .error (e, s)) :
    e = CFLErr.WrongFragmentType ∧
    s.meta.block_count = a.meta.block_count ∧
    s.meta.has_index = a.meta.has_index ∧
    s.meta.index_offset = a.meta.index_offset ∧
    s.meta.missing_data = a.meta.missing_data ∧
    s.payload.take (a.meta.index_offset / wordBytes) =
      a.payload.take (a.meta.index_offset / wordBytes) := by
  obtain ⟨h1, h2, h3, h4, h5, _, _, h8⟩ := addFragments_err_spec hrep herr
  exact ⟨h1, h2, h3, h4, h5, h8⟩

/-- Witness for c10_partial_batch_amended on the concrete failing batch. -/
theorem c10_partial_batch_amended_witness :
    reprB c1 [fragA.words] = true ∧
    addFragments c1 [fragB, fragC] false = .error (CFLErr.WrongFragmentType, c10s) ∧
    (CFLErr.WrongFragmentType = CFLErr.WrongFragmentType ∧
      c10s.meta.block_count = c1.meta.block_count ∧
      c10s.meta.has_index = c1.meta.has_index ∧
      c10s.meta.index_offset = c1.meta.index_offset ∧
      c10s.meta.missing_data = c1.meta.missing_data ∧
      c10s.payload.take (c1.meta.index_offset / wordBytes) =
        c1.payload.take (c1.meta.index_offset / wordBytes)) :=
  ⟨by decide, rfl,
    c10_partial_batch_amended c1 [fragA.words] [fragB, fragC] false
      CFLErr.WrongFragmentType c10s (by decide) rfl⟩

end artdaq
